import Mathlib

/-!
Verification of the soundcard-latency measurement engine (src/app.py):
the GCC-PHAT delay estimator `gcc_phat`, the probe generator and stream
callbacks of `Task`, the `DeviceManager`, and the latency arithmetic of
`Task.exec`.  Audio samples are modelled by `ℝ`, numpy's `rfft`/`irfft`
by the exact discrete Fourier transform, Python integer slicing by
explicit clamped list operations.
-/

open scoped BigOperators

namespace App

/-- Python slice `l[s:]` for an integer start `s`; a negative start counts
from the end of the list (`l[-k:]` keeps the last `k` elements, `l[-0:]`
is the whole list). -/
def pyDropFrom {α : Type} (l : List α) (s : ℤ) : List α :=
  if 0 ≤ s then l.drop s.toNat else l.drop (l.length - (-s).toNat)

/-- Python slice `l[:e]` for an integer stop `e`; a negative stop counts
from the end of the list. -/
def pyTakeTo {α : Type} (l : List α) (e : ℤ) : List α :=
  if 0 ≤ e then l.take e.toNat else l.take (l.length - (-e).toNat)

/-- Python `int()` truncation toward zero of a real number. -/
noncomputable def pyInt (x : ℝ) : ℤ := if 0 ≤ x then ⌊x⌋ else -⌊-x⌋

/-- Python zero-based list indexing `l[i]`, with negative indices counting
from the end; `none` models an `IndexError`. -/
def pyGet {α : Type} (l : List α) (i : ℤ) : Option α :=
  if 0 ≤ i then l.get? i.toNat
  else if (-i).toNat ≤ l.length then l.get? (l.length - (-i).toNat) else none

/-- Helper for `npArgmax`: fold that keeps the index of the first value
strictly larger than everything before it. -/
noncomputable def argmaxAux : List ℝ → ℕ → ℕ → ℝ → ℕ
  | [], _, bi, _ => bi
  | v :: l, i, bi, bv =>
      if bv < v then argmaxAux l (i + 1) i v else argmaxAux l (i + 1) bi bv

/-- numpy `argmax`: index of the first occurrence of the maximum value. -/
noncomputable def npArgmax : List ℝ → ℕ
  | [] => 0
  | v :: l => argmaxAux l 1 0 v

/-- Machine epsilon of a 64-bit float, `np.finfo(float).eps`. -/
noncomputable def eps : ℝ := (2 ^ (52 : ℕ) : ℝ)⁻¹

/-- The primitive `n`-th root of unity `exp(2πi/n)` used by the DFT. -/
noncomputable def zeta (n : ℕ) : ℂ := Complex.exp (2 * Real.pi * Complex.I / n)

/-- Bin `k` of the length-`n` discrete Fourier transform of the
(zero-extended) sequence `x`: `∑ⱼ x j · exp(-2πi·j·k/n)`. -/
noncomputable def dftBin (n : ℕ) (x : ℕ → ℂ) (k : ℤ) : ℂ :=
  ∑ j ∈ Finset.range n, x j * zeta n ^ (-((j : ℤ) * k))

/-- The real list `x` as a zero-extended complex sequence. -/
def sampleAt (x : List ℝ) (j : ℕ) : ℂ := ((x.getD j 0 : ℝ) : ℂ)

/-- numpy `rfft(x, n)`: bins `0 … n/2` of the length-`n` DFT of the real
signal `x`, zero-padded (or truncated) to `n` samples. -/
noncomputable def rfft (x : List ℝ) (n : ℕ) : List ℂ :=
  (List.range (n / 2 + 1)).map fun (k : ℕ) => dftBin n (sampleAt x) (k : ℤ)

/-- Hermitian extension of a half spectrum `v` to a full length-`N`
spectrum, as numpy `irfft` interprets its input; missing bins are zero. -/
noncomputable def hermBin (v : List ℂ) (N k : ℕ) : ℂ :=
  if k ≤ N / 2 then v.getD k 0 else (starRingEnd ℂ) (v.getD (N - k) 0)

/-- numpy `irfft(v, N)`: real inverse transform of the Hermitian extension
of the half spectrum `v`. -/
noncomputable def irfft (v : List ℂ) (N : ℕ) : List ℝ :=
  (List.range N).map fun (j : ℕ) =>
    ((N : ℂ)⁻¹ * ∑ k ∈ Finset.range N, hermBin v N k * zeta N ^ (((j : ℕ) : ℤ) * k)).re

/-- Failure of the delay estimator: numpy's `rfft` raises when asked for a
zero-point transform, which happens exactly when both signals are empty. -/
inductive GccError
  | emptySignal
deriving DecidableEq

/-- The phase-transform whitening of line 53, `R / (np.abs(R) + eps)`. -/
noncomputable def whitenBin (z : ℂ) : ℂ := z / (((Complex.abs z + eps : ℝ)) : ℂ)

/-- Lines 49-53 of `gcc_phat`: the whitened cross-correlation sequence,
`irfft(R / (abs(R) + eps), interp * n)` with
`R = rfft(sig, n) * conj(rfft(refsig, n))`. -/
noncomputable def gccCC (sig refsig : List ℝ) (interp : ℕ) : List ℝ :=
  irfft (((rfft sig (sig.length + refsig.length)).zipWith
      (fun a b => a * (starRingEnd ℂ) b)
      (rfft refsig (sig.length + refsig.length))).map whitenBin)
    (interp * (sig.length + refsig.length))

/-- Lines 55-57 of `gcc_phat`: the search half-window, `int(interp*n/2)`
clamped by a truthy `max_tau` bound. -/
noncomputable def gccMaxShift (n interp : ℕ) (fs : ℝ) (max_tau : Option ℝ) : ℤ :=
  match max_tau with
  | none => (interp * n / 2 : ℕ)
  | some t => if t = 0 then ((interp * n / 2 : ℕ) : ℤ)
              else min (pyInt (interp * fs * t)) ((interp * n / 2 : ℕ) : ℤ)

/-- Line 59 of `gcc_phat`: the Python rotation
`np.concatenate((cc[-max_shift:], cc[:max_shift+1]))`. -/
def gccRotate (cc : List ℝ) (max_shift : ℤ) : List ℝ :=
  pyDropFrom cc (-max_shift) ++ pyTakeTo cc (max_shift + 1)

/-- Shallow embedding of `gcc_phat` (src/app.py lines 39-66).  `max_tau`
is `None` or a float; Python truthiness makes a zero bound fall through to
the default window.  `cc[-max_shift:]` and `cc[:max_shift+1]` are the
Python slices, including the `-0` corner case. -/
noncomputable def gcc_phat (sig refsig : List ℝ) (fs : ℝ) (max_tau : Option ℝ)
    (interp : ℕ) : Except GccError (ℝ × List ℝ) :=
  let n := sig.length + refsig.length
  if n = 0 then .error .emptySignal else
  let cc := gccCC sig refsig interp
  let max_shift := gccMaxShift n interp fs max_tau
  let ccr := gccRotate cc max_shift
  let shift : ℤ := (npArgmax (ccr.map fun v => |v|) : ℤ) - max_shift
  .ok ((shift : ℝ) / (interp * fs), ccr)

/-- numpy `hanning(M)`: the Hann window `0.5 - 0.5·cos(2πi/(M-1))`;
numpy special-cases `M = 1` to `[1]`. -/
noncomputable def hanning (M : ℕ) : List ℝ :=
  if M = 1 then [1]
  else (List.range M).map fun (i : ℕ) =>
    1 / 2 - 1 / 2 * Real.cos (2 * Real.pi * (i : ℝ) / ((M : ℝ) - 1))

/-- Peak absolute value `np.amax(np.abs(l))` of a (non-empty) sample list. -/
noncomputable def npMaxAbs (l : List ℝ) : ℝ := l.foldl (fun a v => max a |v|) 0

/-- Lines 192-195 of `Task.exec`: the Hann-windowed noise burst, divided by
its peak absolute value; `w` is the raw `np.random.normal` draw of length
`rate / 5`. -/
noncomputable def noiseBurst (rate : ℕ) (w : List ℝ) : List ℝ :=
  let windowed := List.zipWith (fun a b => a * b) w (hanning (rate / 5))
  windowed.map fun v => v / npMaxAbs windowed

/-- Lines 197-198: the mono probe, 0.1 s of silence, the noise burst,
0.1 s of silence. -/
noncomputable def monoProbe (rate : ℕ) (w : List ℝ) : List ℝ :=
  List.replicate (rate / 10) 0 ++ noiseBurst rate w ++ List.replicate (rate / 10) 0

/-- Lines 199-200: the mono probe placed on channel 0 of a frame buffer
with `channels` channels, every other channel zero. -/
noncomputable def probeFrames (rate channels : ℕ) (w : List ℝ) : List (List ℝ) :=
  (monoProbe rate w).map fun v => (List.range channels).map fun c => if c = 0 then v else 0

/-- One invocation of `Task.on_ouput` (lines 143-158) on the data it
touches: the probe frames, the cursor and the requested frame count.
Returns the block written to `outdata`, the new cursor, and whether
`sd.CallbackStop` was raised. -/
def Task.on_ouput (output_data : List (List ℝ)) (output_index frames channels : ℕ) :
    List (List ℝ) × ℕ × Bool :=
  let data := (output_data.drop output_index).take frames
  let size := data.length
  if size < frames then
    (data ++ List.replicate (frames - size) (List.replicate channels 0),
     output_index + size, true)
  else
    (data, output_index + size, false)

/-- One host-API record as `sd.query_hostapis()` returns it; the default
device fields are PortAudio device indices (`-1` when there is none). -/
structure HostApi where
  name : String
  default_input_device : ℤ
  default_output_device : ℤ
deriving DecidableEq

/-- One device record as `sd.query_devices()` returns it. -/
structure AudioDevice where
  name : String
  hostapi : ℕ
  max_input_channels : ℕ
  max_output_channels : ℕ
deriving DecidableEq

/-- The mutable fields a `DeviceManager` instance carries after `scan`. -/
structure DeviceManagerState where
  apis : List HostApi
  devices : List AudioDevice
  api_list : List String
  api_index : ℕ
  input_devices : List AudioDevice
  output_devices : List AudioDevice
  device_list : List String
  input_list : List String
  output_list : List String
  default_input_index : ℕ
  default_output_index : ℕ
deriving DecidableEq

/-- The audio subsystem `scan` queries: whether
`sd._terminate(); sd._initialize()` succeeds, and the enumeration results. -/
structure AudioEnv where
  reinit_ok : Bool
  apis : List HostApi
  devices : List AudioDevice

/-- The exceptions the statements of `scan` can raise. -/
inductive ScanError
  | reinitFailed
  | indexError
  | valueError
deriving DecidableEq

/-- Index of the first occurrence of `a`, Python `sequence.index` with
`none` for the `ValueError`. -/
def idxOf? {α : Type} [DecidableEq α] : List α → α → Option ℕ
  | [], _ => none
  | v :: l, a => if v = a then some 0 else (idxOf? l a).map (· + 1)

/-- Shallow embedding of `DeviceManager.scan` (lines 81-118).  Python
mutates the fields of `self` one assignment at a time, so the embedding
threads the state through each assignment and stops at the statement that
raises, keeping every assignment already made.  Failure points, in source
order: the subsystem reinitialization, the `IndexError` from
`self.apis[api_index]` and `self.devices[...]` (line 112-115), and the
`ValueError` from `tuple.index` (lines 117-118); the `ValueError` of line
89 is caught by the source and falls back to index 0. -/
def DeviceManager.scan (st : DeviceManagerState) (env : AudioEnv) (api : String) :
    DeviceManagerState × Option ScanError :=
  if ¬ env.reinit_ok then (st, some .reinitFailed) else
  let api_list := env.apis.map (fun a => a.name)
  let st1 := { st with apis := env.apis, devices := env.devices, api_list := api_list }
  let api_index : ℕ := match idxOf? st1.api_list api with
    | some i => i
    | none => 0
  let input_devices : List AudioDevice := env.devices.filter fun d =>
    decide (d.max_input_channels > 0) && (d.hostapi == api_index)
  let output_devices : List AudioDevice := env.devices.filter fun d =>
    decide (d.max_output_channels > 0) && (d.hostapi == api_index)
  let device_list := env.devices.map (fun d => d.name)
  let input_list := input_devices.map (fun d => d.name)
  let output_list := output_devices.map (fun d => d.name)
  let st2 := { st1 with
    api_index := api_index,
    input_devices := input_devices,
    output_devices := output_devices,
    device_list := device_list,
    input_list := input_list,
    output_list := output_list }
  match st2.apis.get? api_index with
  | none => (st2, some .indexError)
  | some a =>
    match pyGet st2.devices a.default_input_device with
    | none => (st2, some .indexError)
    | some input_device =>
      match pyGet st2.devices a.default_output_device with
      | none => (st2, some .indexError)
      | some output_device =>
        match idxOf? st2.input_devices input_device with
        | none => (st2, some .valueError)
        | some di =>
          let st3 := { st2 with default_input_index := di }
          match idxOf? st3.output_devices output_device with
          | none => (st3, some .valueError)
          | some dj => ({ st3 with default_output_index := dj }, none)

/-- The mutable fields of a `Task` (lines 124-132) that a run touches. -/
structure TaskState where
  latency : ℝ
  x : List ℝ
  y : List ℝ
  input_time : ℝ
  output_time : ℝ
  input_blocks : List (List ℝ)
  output_index : ℕ
  output_data : List (List ℝ)

/-- The external world one `Task.exec` run interacts with: the raw
white-noise draw for the probe, and the outcome of the duplex streaming
phase (`none` models a raised stream error; otherwise the captured frames
and the wall-clock start times the two callbacks recorded). -/
structure RunEnv where
  noise : List ℝ
  streaming : Option (List (List ℝ) × ℝ × ℝ)

/-- Lines 175-182 of `Task.exec`: resolve a device name through the
filtered name list to an index into the full device list.  `none` models
the `ValueError` (or `IndexError`) Python raises when a lookup fails. -/
def resolveIndex (devices filtered : List AudioDevice) (names : List String)
    (nm : String) : Option ℕ := do
  let i ← idxOf? names nm
  let d ← filtered.get? i
  idxOf? devices d

/-- Line 246: the estimated lag converted to milliseconds. -/
noncomputable def execDt (offset input_rate : ℝ) : ℝ := offset * 1000 / input_rate

/-- Line 247: the wall-clock skew between the two callback start times,
corrected by one block duration. -/
noncomputable def execDelay (output_time input_time period_time_ms : ℝ) : ℝ :=
  (output_time - input_time) * 1000 - period_time_ms

/-- Shallow embedding of `Task.exec` (lines 173-269) at the granularity of
its mutations of the task state: device resolution (raises before any
mutation), probe construction and per-run reset (lines 191-204), duplex
streaming (lines 208-227, outcome supplied by the environment), then
estimation and the latency arithmetic (lines 243-265).  The returned
`Except` is the exception flow `Task.run` catches; `.ok 0` is the
source's `return 0`. -/
noncomputable def Task.exec (st : TaskState) (dm : DeviceManagerState) (env : RunEnv)
    (input_name output_name : String) : TaskState × Except Unit ℤ :=
  match resolveIndex dm.devices dm.input_devices dm.input_list input_name with
  | none => (st, .error ())
  | some input_idx =>
  match resolveIndex dm.devices dm.output_devices dm.output_list output_name with
  | none => (st, .error ())
  | some output_idx =>
  match dm.devices.get? input_idx, dm.devices.get? output_idx with
  | some din, some dout =>
    let input_rate : ℕ := 48000
    let output_rate : ℕ := 48000
    let input_channels := din.max_input_channels
    let output_channels := dout.max_output_channels
    let period_time_ms : ℕ := 4
    let source := probeFrames output_rate output_channels env.noise
    let st1 := { st with output_data := source, output_index := 0, input_blocks := [] }
    match env.streaming with
    | none => (st1, .error ())
    | some (blocks, t_in, t_out) =>
      let st2 := { st1 with input_blocks := blocks, input_time := t_in,
                            output_time := t_out }
      let recording := st2.input_blocks
      let ref := monoProbe output_rate env.noise
      let sig := if 1 < input_channels then recording.map (fun r => r.getD 0 0)
                 else recording.flatten
      match gcc_phat sig ref 1 none 1 with
      | .error _ => (st2, .error ())
      | .ok (offset, cc) =>
        let dt := execDt offset input_rate
        let delay := execDelay st2.output_time st2.input_time period_time_ms
        let latency := dt - delay
        let zero_point : ℕ := (sig.length + ref.length) / 2
        let tAxis := (List.range cc.length).map fun i =>
          ((i : ℝ) - zero_point) * 1000 / (input_rate : ℝ) - delay
        ({ st2 with latency := latency,
                    x := tAxis.drop zero_point,
                    y := cc.drop zero_point }, .ok 0)
  | _, _ => (st, .error ())

/-- Shallow embedding of `Task.run` (lines 165-171): run `exec`, catch any
exception as result `-1`, and emit the integer result (the only data the
`finished` signal publishes). -/
noncomputable def Task.run (st : TaskState) (dm : DeviceManagerState) (env : RunEnv)
    (input_name output_name : String) : TaskState × ℤ :=
  match Task.exec st dm env input_name output_name with
  | (st', .ok r) => (st', r)
  | (st', .error _) => (st', -1)

/-- Circular delay of a signal by `k` samples: element `i` of the result
is element `(i - k) mod length` of the input. -/
def circShift (l : List ℝ) (k : ℤ) : List ℝ :=
  (List.range l.length).map fun i => l.getD (((i - k) % (l.length : ℤ)).toNat) 0

/-- Evaluation of the inverse transform of a length-`n` spectrum `X` at an
arbitrary integer sample position `t` (the length-`n` periodic extension
of `irfft`-style reconstruction). -/
noncomputable def invBin (n : ℕ) (X : ℕ → ℂ) (t : ℤ) : ℂ :=
  (n : ℂ)⁻¹ * ∑ k ∈ Finset.range n, X k * zeta n ^ (t * k)

/-- The inverse transform of a real spectrum `a`, evaluated at integer
position `t`; for the whitened autocorrelation spectrum this is the
correlation value at (possibly negative) lag `t`. -/
noncomputable def Afun (n : ℕ) (a : ℕ → ℝ) (t : ℤ) : ℝ :=
  (invBin n (fun k => ((a k : ℝ) : ℂ)) t).re

/-- The search half-window exactly as claim C2 words it: `int(interp*n/2)`
reduced to `int(interp*fs*maxTau)` whenever a `maxTau` bound is given and
smaller — with no exemption for a zero bound. -/
noncomputable def specMaxShift (n interp : ℕ) (fs : ℝ) (max_tau : Option ℝ) : ℤ :=
  match max_tau with
  | none => (interp * n / 2 : ℕ)
  | some t => min (pyInt (interp * fs * t)) ((interp * n / 2 : ℕ) : ℤ)

/-- The rotation exactly as claim C2 words it: the last `max_shift`
samples followed by the first `max_shift + 1` samples. -/
def specRotate (cc : List ℝ) (max_shift : ℤ) : List ℝ :=
  cc.drop (cc.length - max_shift.toNat) ++ cc.take (max_shift.toNat + 1)

/-- The estimator as claim C2 describes it: the same whitened inverse
transform, the claim's window and rotation, and the lag conversion
`(argmax(|cc|) - maxShift) / (interp * fs)`. -/
noncomputable def specGccPhat (sig refsig : List ℝ) (fs : ℝ) (max_tau : Option ℝ)
    (interp : ℕ) : ℝ × List ℝ :=
  let n := sig.length + refsig.length
  let cc := gccCC sig refsig interp
  let max_shift := specMaxShift n interp fs max_tau
  let ccr := specRotate cc max_shift
  (((((npArgmax (ccr.map fun v => |v|) : ℤ) - max_shift : ℤ) : ℝ) / (interp * fs)), ccr)

/-! ### Roots of unity -/

theorem zeta_ne_zero (n : ℕ) : zeta n ≠ 0 := Complex.exp_ne_zero _

theorem zeta_eq_exp (n : ℕ) :
    zeta n = Complex.exp (((2 * Real.pi / n : ℝ) : ℂ) * Complex.I) := by
  unfold zeta
  congr 1
  push_cast
  ring

theorem zeta_zpow (n : ℕ) (a : ℤ) :
    zeta n ^ a = Complex.exp (((2 * Real.pi * a / n : ℝ) : ℂ) * Complex.I) := by
  rw [zeta_eq_exp, ← Complex.exp_int_mul]
  congr 1
  push_cast
  ring

theorem abs_zeta_zpow (n : ℕ) (a : ℤ) : Complex.abs (zeta n ^ a) = 1 := by
  rw [zeta_zpow]
  exact Complex.abs_exp_ofReal_mul_I _

theorem conj_zeta_zpow (n : ℕ) (a : ℤ) :
    (starRingEnd ℂ) (zeta n ^ a) = zeta n ^ (-a) := by
  rw [zeta_zpow, zeta_zpow, ← Complex.exp_conj, map_mul, Complex.conj_I,
    Complex.conj_ofReal]
  congr 1
  push_cast
  ring

theorem zeta_pow_self (n : ℕ) (hn : 0 < n) : zeta n ^ (n : ℤ) = 1 := by
  have hn' : (n : ℝ) ≠ 0 := Nat.cast_ne_zero.mpr hn.ne'
  rw [zeta_zpow]
  have h : (2 * Real.pi * (((n : ℤ) : ℝ)) / (n : ℝ) : ℝ) = 2 * Real.pi := by
    push_cast
    field_simp
  rw [h]
  have h2 : (((2 * Real.pi : ℝ) : ℂ)) * Complex.I = 2 * (Real.pi : ℂ) * Complex.I := by
    push_cast
    ring
  rw [h2]
  exact Complex.exp_two_pi_mul_I

theorem zeta_zpow_eq_one_iff (n : ℕ) (hn : 0 < n) (a : ℤ) :
    zeta n ^ a = 1 ↔ (n : ℤ) ∣ a := by
  constructor
  · intro h
    rw [zeta_zpow, Complex.exp_eq_one_iff] at h
    obtain ⟨k, hk⟩ := h
    have h2 := congrArg Complex.im hk
    simp [Complex.mul_im, Complex.mul_re] at h2
    have hn' : (n : ℝ) ≠ 0 := Nat.cast_ne_zero.mpr hn.ne'
    have h3 : (2 * Real.pi) * (a : ℝ) = (2 * Real.pi) * ((k : ℝ) * (n : ℝ)) := by
      field_simp at h2
      linarith
    have h4 : (a : ℝ) = ((k * n : ℤ) : ℝ) := by
      have h2π : (2 * Real.pi) ≠ 0 := by positivity
      have := mul_left_cancel₀ h2π h3
      push_cast
      linarith
    have h5 : a = k * n := by exact_mod_cast h4
    exact ⟨k, by rw [h5]; ring⟩
  · rintro ⟨b, rfl⟩
    rw [zpow_mul, zeta_pow_self n hn, one_zpow]

theorem sum_zeta_zpow (n : ℕ) (hn : 0 < n) (a : ℤ) :
    ∑ k ∈ Finset.range n, zeta n ^ (a * k) = if (n : ℤ) ∣ a then (n : ℂ) else 0 := by
  split_ifs with h
  · have h1 : ∀ k ∈ Finset.range n, zeta n ^ (a * (k : ℤ)) = 1 := fun k _ =>
      (zeta_zpow_eq_one_iff n hn _).mpr (h.mul_right _)
    rw [Finset.sum_congr rfl h1]
    simp
  · have hne : zeta n ^ a ≠ 1 := fun hone => h ((zeta_zpow_eq_one_iff n hn a).mp hone)
    have hterm : ∀ k ∈ Finset.range n, zeta n ^ (a * (k : ℤ)) = (zeta n ^ a) ^ k := by
      intro k _
      rw [← zpow_natCast (zeta n ^ a) k, ← zpow_mul]
    rw [Finset.sum_congr rfl hterm, geom_sum_eq hne]
    have hpow : (zeta n ^ a) ^ n = 1 := by
      rw [← zpow_natCast (zeta n ^ a) n, ← zpow_mul, mul_comm, zpow_mul,
        zeta_pow_self n hn, one_zpow]
    rw [hpow]
    simp

/-! ### Specification of numpy argmax -/

theorem argmaxAux_const (l : List ℝ) (i bi : ℕ) (bv : ℝ)
    (h : ∀ j, j < l.length → l.getD j 0 ≤ bv) : argmaxAux l i bi bv = bi := by
  induction l generalizing i with
  | nil => rfl
  | cons v l ih =>
      have hv : ¬ bv < v := not_lt.mpr (by simpa using h 0 (by simp))
      simp only [argmaxAux, if_neg hv]
      exact ih _ fun j hj => by simpa using h (j + 1) (by simpa using hj)

theorem argmaxAux_eq (l : List ℝ) (p : ℕ) (hp : p < l.length) (i bi : ℕ) (bv : ℝ)
    (h1 : bv < l.getD p 0)
    (h2 : ∀ j, j < p → l.getD j 0 < l.getD p 0)
    (h3 : ∀ j, j < l.length → l.getD j 0 ≤ l.getD p 0) :
    argmaxAux l i bi bv = i + p := by
  induction l generalizing p i bi bv with
  | nil => simp at hp
  | cons v l ih =>
    match p with
    | 0 =>
      rw [List.getD_cons_zero] at h1
      simp only [argmaxAux, if_pos h1]
      rw [argmaxAux_const l (i + 1) i v fun j hj => by
        simpa using h3 (j + 1) (by simpa using hj)]
      omega
    | p + 1 =>
      rw [List.getD_cons_succ] at h1 h2
      have hplen : p < l.length := by simpa using hp
      have h2' : ∀ j, j < p → l.getD j 0 < l.getD p 0 := fun j hj => by
        simpa using h2 (j + 1) (by omega)
      have h3' : ∀ j, j < l.length → l.getD j 0 ≤ l.getD p 0 := fun j hj => by
        simpa using h3 (j + 1) (by simpa using hj)
      by_cases hv : bv < v
      · simp only [argmaxAux, if_pos hv]
        have hvp : v < l.getD p 0 := by simpa using h2 0 (by omega)
        rw [ih p hplen (i + 1) i v hvp h2' h3']
        omega
      · simp only [argmaxAux, if_neg hv]
        rw [ih p hplen (i + 1) bi bv h1 h2' h3']
        omega

theorem npArgmax_eq (l : List ℝ) (p : ℕ) (hp : p < l.length)
    (h2 : ∀ j, j < p → l.getD j 0 < l.getD p 0)
    (h3 : ∀ j, j < l.length → l.getD j 0 ≤ l.getD p 0) :
    npArgmax l = p := by
  match l with
  | [] => simp at hp
  | v :: l =>
    match p with
    | 0 =>
      show argmaxAux l 1 0 v = 0
      exact argmaxAux_const l 1 0 v fun j hj => by
        simpa using h3 (j + 1) (by simpa using hj)
    | p + 1 =>
      show argmaxAux l 1 0 v = p + 1
      have hplen : p < l.length := by simpa using hp
      have h1 : v < l.getD p 0 := by simpa using h2 0 (by omega)
      have h2' : ∀ j, j < p → l.getD j 0 < l.getD p 0 := fun j hj => by
        simpa using h2 (j + 1) (by omega)
      have h3' : ∀ j, j < l.length → l.getD j 0 ≤ l.getD p 0 := fun j hj => by
        simpa using h3 (j + 1) (by simpa using hj)
      have := argmaxAux_eq l p hplen 1 0 v h1 h2' h3'
      omega

/-! ### Inversion and support of the DFT -/

theorem dft_inversion (n : ℕ) (hn : 0 < n) (x : ℕ → ℂ) (i : ℕ) (hi : i < n) :
    invBin n (fun k => dftBin n x (k : ℤ)) (i : ℤ) = x i := by
  have hz := zeta_ne_zero n
  have hnC : (n : ℂ) ≠ 0 := Nat.cast_ne_zero.mpr hn.ne'
  have step1 : ∀ k ∈ Finset.range n,
      dftBin n x (k : ℤ) * zeta n ^ ((i : ℤ) * k)
        = ∑ j ∈ Finset.range n, x j * zeta n ^ (((i : ℤ) - j) * k) := by
    intro k _
    unfold dftBin
    rw [Finset.sum_mul]
    refine Finset.sum_congr rfl fun j _ => ?_
    rw [mul_assoc, ← zpow_add₀ hz]
    congr 2
    ring
  unfold invBin
  rw [Finset.sum_congr rfl step1, Finset.sum_comm]
  have step2 : ∀ j ∈ Finset.range n,
      ∑ k ∈ Finset.range n, x j * zeta n ^ (((i : ℤ) - j) * k)
        = x j * (if (n : ℤ) ∣ ((i : ℤ) - j) then (n : ℂ) else 0) := by
    intro j _
    rw [← Finset.mul_sum, sum_zeta_zpow n hn]
  rw [Finset.sum_congr rfl step2, Finset.sum_eq_single i]
  · rw [if_pos (by simp)]
    field_simp
  · intro j hj hne
    rw [if_neg, mul_zero]
    intro hdvd
    have hjn := Finset.mem_range.mp hj
    have habs : |(i : ℤ) - j| < n := by
      rw [abs_lt]
      omega
    have := Int.eq_zero_of_abs_lt_dvd hdvd habs
    omega
  · intro hi2
    exact ((hi2 (Finset.mem_range.mpr hi)).elim)

theorem invBin_step (n : ℕ) (X : ℕ → ℂ) (g c : ℤ)
    (hph : ∀ k, k < n → X k ≠ 0 → zeta n ^ (g * k) = zeta n ^ (g * c))
    (t : ℤ) : invBin n X (t + g) = zeta n ^ (g * c) * invBin n X t := by
  have hz := zeta_ne_zero n
  have hterm : ∀ k ∈ Finset.range n, X k * zeta n ^ ((t + g) * k)
      = zeta n ^ (g * c) * (X k * zeta n ^ (t * k)) := by
    intro k hk
    by_cases hXk : X k = 0
    · simp [hXk]
    · rw [show (t + g) * (k : ℤ) = t * k + g * k by ring, zpow_add₀ hz,
        hph k (Finset.mem_range.mp hk) hXk]
      ring
  unfold invBin
  rw [Finset.sum_congr rfl hterm, ← Finset.mul_sum]
  ring

theorem invBin_abs_orbit (n : ℕ) (X : ℕ → ℂ) (g c : ℤ)
    (hph : ∀ k, k < n → X k ≠ 0 → zeta n ^ (g * k) = zeta n ^ (g * c))
    (t : ℤ) (s : ℕ) :
    Complex.abs (invBin n X (t + s * g)) = Complex.abs (invBin n X t) := by
  induction s with
  | zero => simp
  | succ s ih =>
    rw [show t + ((s + 1 : ℕ) : ℤ) * g = (t + s * g) + g by push_cast; ring,
      invBin_step n X g c hph, map_mul, abs_zeta_zpow, one_mul, ih]

theorem dft_support_coset (n L : ℕ) (x : ℕ → ℂ) (t : ℤ)
    (hn : 0 < n) (hL : 2 * L ≤ n)
    (hsupp : ∀ j, L ≤ j → x j = 0)
    (ht : ¬ (n : ℤ) ∣ t)
    (hpair : ∀ k, k < n → dftBin n x (k : ℤ) ≠ 0 →
      ∀ l, l < n → dftBin n x (l : ℤ) ≠ 0 → (n : ℤ) ∣ t * ((k : ℤ) - l)) :
    ∀ j, x j = 0 := by
  by_cases hact : ∃ c, c < n ∧ dftBin n x (c : ℤ) ≠ 0
  case neg =>
    intro j
    by_cases hjn : j < n
    · rw [← dft_inversion n hn x j hjn]
      unfold invBin
      have hzero : ∀ k ∈ Finset.range n,
          dftBin n x (k : ℤ) * zeta n ^ ((j : ℤ) * k) = 0 := by
        intro k hk
        have hk0 : dftBin n x (k : ℤ) = 0 := by
          by_contra hne
          exact hact ⟨k, Finset.mem_range.mp hk, hne⟩
        simp [hk0]
      rw [Finset.sum_congr rfl hzero]
      simp
    · exact hsupp j (by omega)
  case pos =>
    obtain ⟨c, hc, hcnz⟩ := hact
    set gN : ℕ := Int.gcd t n with hg
    have hgpos : 0 < gN := by
      rcases Nat.eq_zero_or_pos gN with h0 | h
      · have h1 := Int.gcd_eq_zero_iff.mp h0
        have : n = 0 := by exact_mod_cast h1.2
        omega
      · exact h
    have hgdvdn : gN ∣ n := by
      have h1 : ((gN : ℤ)) ∣ (n : ℤ) := Int.gcd_dvd_right
      exact_mod_cast h1
    have hgne : gN ≠ n := by
      intro h
      apply ht
      have h1 : ((gN : ℤ)) ∣ t := Int.gcd_dvd_left
      rw [h] at h1
      exact_mod_cast h1
    have hghalf : gN ≤ n / 2 := by
      obtain ⟨m, hm⟩ := hgdvdn
      have hm2 : 2 ≤ m := by
        rcases m with _ | _ | m
        · omega
        · omega
        · omega
      have : 2 * gN ≤ m * gN := Nat.mul_le_mul_right gN hm2
      have hmm : m * gN = n := by rw [hm]; ring
      omega
    have hph : ∀ k, k < n → dftBin n x (k : ℤ) ≠ 0 →
        zeta n ^ ((gN : ℤ) * k) = zeta n ^ ((gN : ℤ) * c) := by
      intro k hk hknz
      have h1 : (n : ℤ) ∣ t * ((k : ℤ) - c) := hpair k hk hknz c hc hcnz
      have hdvd : (n : ℤ) ∣ (gN : ℤ) * ((k : ℤ) - c) := by
        have hb : ((gN : ℤ)) = t * Int.gcdA t n + n * Int.gcdB t n := Int.gcd_eq_gcd_ab t n
        have hexp : (gN : ℤ) * ((k : ℤ) - c)
            = Int.gcdA t n * (t * ((k : ℤ) - c))
              + (n : ℤ) * (Int.gcdB t n * ((k : ℤ) - c)) := by
          rw [hb]
          ring
        rw [hexp]
        exact dvd_add (h1.mul_left _) (Dvd.intro _ rfl)
      rw [show (gN : ℤ) * (k : ℤ) = (gN : ℤ) * c + (gN : ℤ) * ((k : ℤ) - c) by ring,
        zpow_add₀ (zeta_ne_zero n), (zeta_zpow_eq_one_iff n hn _).mpr hdvd, mul_one]
    intro j
    by_cases hjL : j < L
    · set s : ℕ := (L - 1 - j) / gN + 1 with hs
      have hlow : L ≤ j + s * gN := by
        have h1 : L - 1 - j < s * gN := by
          have ha := Nat.div_add_mod (L - 1 - j) gN
          have hb := Nat.mod_lt (L - 1 - j) hgpos
          have hc2 : s * gN = gN * ((L - 1 - j) / gN) + gN := by rw [hs]; ring
          omega
        omega
      have hhigh : j + s * gN < n := by
        have h2 : (L - 1 - j) / gN * gN ≤ L - 1 - j := Nat.div_mul_le_self _ _
        have h3 : s * gN = (L - 1 - j) / gN * gN + gN := by rw [hs]; ring
        omega
      have hstep := invBin_abs_orbit n (fun k => dftBin n x (k : ℤ)) (gN : ℤ) (c : ℤ)
        hph (j : ℤ) s
      rw [show (j : ℤ) + (s : ℤ) * (gN : ℤ) = ((j + s * gN : ℕ) : ℤ) by push_cast; ring]
        at hstep
      rw [dft_inversion n hn x _ hhigh, dft_inversion n hn x j (by omega),
        hsupp _ hlow] at hstep
      simp only [map_zero] at hstep
      exact (map_eq_zero _).mp hstep.symm
    · exact hsupp j (by omega)

/-! ### The whitened autocorrelation function -/

theorem eps_pos : 0 < eps := by
  unfold eps
  positivity

theorem Afun_cos (n : ℕ) (a : ℕ → ℝ) (t : ℤ) :
    Afun n a t = (n : ℝ)⁻¹ *
      ∑ k ∈ Finset.range n, a k * Real.cos (2 * Real.pi * ((t * k : ℤ) : ℝ) / n) := by
  unfold Afun invBin
  rw [show ((n : ℂ))⁻¹ = (((n : ℝ)⁻¹ : ℝ) : ℂ) by push_cast; ring, Complex.re_ofReal_mul]
  congr 1
  rw [Complex.re_sum]
  refine Finset.sum_congr rfl fun k _ => ?_
  rw [zeta_zpow, Complex.re_ofReal_mul, Complex.exp_ofReal_mul_I_re]

theorem Afun_zero (n : ℕ) (a : ℕ → ℝ) :
    Afun n a 0 = (n : ℝ)⁻¹ * ∑ k ∈ Finset.range n, a k := by
  rw [Afun_cos]
  congr 1
  refine Finset.sum_congr rfl fun k _ => ?_
  norm_num

theorem Afun_abs_le (n : ℕ) (a : ℕ → ℝ) (ha : ∀ k, 0 ≤ a k) (t : ℤ) :
    |Afun n a t| ≤ Afun n a 0 := by
  rw [Afun_cos, Afun_zero, abs_mul, abs_of_nonneg (show (0:ℝ) ≤ (n:ℝ)⁻¹ by positivity)]
  apply mul_le_mul_of_nonneg_left _ (by positivity)
  apply le_trans (Finset.abs_sum_le_sum_abs _ _)
  apply Finset.sum_le_sum
  intro k _
  rw [abs_mul, abs_of_nonneg (ha k)]
  calc a k * |Real.cos (2 * Real.pi * ((t * k : ℤ) : ℝ) / n)| ≤ a k * 1 :=
        mul_le_mul_of_nonneg_left (Real.abs_cos_le_one _) (ha k)
    _ = a k := mul_one _

theorem Afun_strict (n : ℕ) (hn : 0 < n) (a : ℕ → ℝ) (ha : ∀ k, 0 ≤ a k) (t : ℤ)
    (h1 : ∃ k, k < n ∧ a k ≠ 0 ∧ Real.cos (2 * Real.pi * ((t * k : ℤ) : ℝ) / n) ≠ 1)
    (h2 : ∃ k, k < n ∧ a k ≠ 0 ∧ Real.cos (2 * Real.pi * ((t * k : ℤ) : ℝ) / n) ≠ -1) :
    |Afun n a t| < Afun n a 0 := by
  have hinv : (0:ℝ) < (n:ℝ)⁻¹ := by positivity
  have hsum1 : 0 < ∑ k ∈ Finset.range n,
      a k * (1 - Real.cos (2 * Real.pi * ((t * k : ℤ) : ℝ) / n)) := by
    apply Finset.sum_pos'
    · intro k _
      have hc := Real.cos_le_one (2 * Real.pi * ((t * k : ℤ) : ℝ) / n)
      have := ha k
      nlinarith
    · obtain ⟨k, hk, hak, hck⟩ := h1
      refine ⟨k, Finset.mem_range.mpr hk, ?_⟩
      have hc := Real.cos_le_one (2 * Real.pi * ((t * k : ℤ) : ℝ) / n)
      have hak' : 0 < a k := lt_of_le_of_ne (ha k) (Ne.symm hak)
      have : Real.cos (2 * Real.pi * ((t * k : ℤ) : ℝ) / n) < 1 := lt_of_le_of_ne hc hck
      nlinarith
  have hsum2 : 0 < ∑ k ∈ Finset.range n,
      a k * (1 + Real.cos (2 * Real.pi * ((t * k : ℤ) : ℝ) / n)) := by
    apply Finset.sum_pos'
    · intro k _
      have hc := Real.neg_one_le_cos (2 * Real.pi * ((t * k : ℤ) : ℝ) / n)
      have := ha k
      nlinarith
    · obtain ⟨k, hk, hak, hck⟩ := h2
      refine ⟨k, Finset.mem_range.mpr hk, ?_⟩
      have hc := Real.neg_one_le_cos (2 * Real.pi * ((t * k : ℤ) : ℝ) / n)
      have hak' : 0 < a k := lt_of_le_of_ne (ha k) (Ne.symm hak)
      have : -1 < Real.cos (2 * Real.pi * ((t * k : ℤ) : ℝ) / n) :=
        lt_of_le_of_ne hc (Ne.symm hck)
      nlinarith
  have hd1 : 0 < Afun n a 0 - Afun n a t := by
    rw [Afun_zero, Afun_cos, ← mul_sub, ← Finset.sum_sub_distrib]
    have heq : ∀ k ∈ Finset.range n,
        a k - a k * Real.cos (2 * Real.pi * ((t * k : ℤ) : ℝ) / n)
          = a k * (1 - Real.cos (2 * Real.pi * ((t * k : ℤ) : ℝ) / n)) := by
      intro k _
      ring
    rw [Finset.sum_congr rfl heq]
    exact mul_pos hinv hsum1
  have hd2 : 0 < Afun n a 0 + Afun n a t := by
    rw [Afun_zero, Afun_cos, ← mul_add, ← Finset.sum_add_distrib]
    have heq : ∀ k ∈ Finset.range n,
        a k + a k * Real.cos (2 * Real.pi * ((t * k : ℤ) : ℝ) / n)
          = a k * (1 + Real.cos (2 * Real.pi * ((t * k : ℤ) : ℝ) / n)) := by
      intro k _
      ring
    rw [Finset.sum_congr rfl heq]
    exact mul_pos hinv hsum2
  rw [abs_lt]
  constructor <;> linarith

/-! ### Cosine angle classification -/

theorem cos_angle_eq_one_iff (n : ℕ) (hn : 0 < n) (m : ℤ) :
    Real.cos (2 * Real.pi * (m : ℝ) / n) = 1 ↔ (n : ℤ) ∣ m := by
  have hn' : (n : ℝ) ≠ 0 := Nat.cast_ne_zero.mpr hn.ne'
  have hπ : Real.pi ≠ 0 := Real.pi_ne_zero
  constructor
  · intro h
    obtain ⟨z, hz⟩ := (Real.cos_eq_one_iff _).mp h
    refine ⟨z, ?_⟩
    have h3 : Real.pi * (2 * (m : ℝ)) = Real.pi * (2 * ((n : ℝ) * (z : ℝ))) := by
      field_simp at hz
      nlinarith [hz]
    have h4 := mul_left_cancel₀ hπ h3
    have h5 : (m : ℝ) = ((n * z : ℤ) : ℝ) := by
      push_cast
      linarith
    exact_mod_cast h5
  · rintro ⟨z, rfl⟩
    have harg : 2 * Real.pi * (((n : ℤ) * z : ℤ) : ℝ) / n = (z : ℝ) * (2 * Real.pi) := by
      push_cast
      field_simp
      ring
    rw [harg]
    exact Real.cos_int_mul_two_pi z

theorem cos_angle_eq_neg_one_imp (n : ℕ) (hn : 0 < n) (m : ℤ)
    (h : Real.cos (2 * Real.pi * (m : ℝ) / n) = -1) :
    ∃ z : ℤ, 2 * m = n * (2 * z + 1) := by
  have hn' : (n : ℝ) ≠ 0 := Nat.cast_ne_zero.mpr hn.ne'
  have hπ : Real.pi ≠ 0 := Real.pi_ne_zero
  have h2 : Real.cos (2 * Real.pi * (m : ℝ) / n - Real.pi) = 1 := by
    rw [Real.cos_sub_pi, h]
    norm_num
  obtain ⟨z, hz⟩ := (Real.cos_eq_one_iff _).mp h2
  refine ⟨z, ?_⟩
  have h3 : Real.pi * (2 * (m : ℝ)) = Real.pi * ((n : ℝ) * (2 * (z : ℝ) + 1)) := by
    field_simp at hz
    nlinarith [hz]
  have h4 := mul_left_cancel₀ hπ h3
  have h5 : ((2 * m : ℤ) : ℝ) = (((n : ℤ) * (2 * z + 1) : ℤ) : ℝ) := by
    push_cast
    linarith
  exact_mod_cast h5

/-! ### Conjugate symmetry of the real DFT and the whitening -/

theorem dft_real_conj (x : List ℝ) (n : ℕ) (hn : 0 < n) (k : ℕ) (hk : k ≤ n) :
    (starRingEnd ℂ) (dftBin n (sampleAt x) ((n - k : ℕ) : ℤ))
      = dftBin n (sampleAt x) (k : ℤ) := by
  unfold dftBin
  rw [map_sum]
  refine Finset.sum_congr rfl fun j _ => ?_
  rw [map_mul, conj_zeta_zpow,
    show (starRingEnd ℂ) (sampleAt x j) = sampleAt x j from Complex.conj_ofReal _]
  congr 1
  have hcast : ((n - k : ℕ) : ℤ) = (n : ℤ) - k := by omega
  rw [hcast, show -(-((j : ℤ) * ((n : ℤ) - k))) = (n : ℤ) * j + -((j : ℤ) * k) by ring,
    zpow_add₀ (zeta_ne_zero n), zpow_mul, zeta_pow_self n hn, one_zpow, one_mul]

theorem whitenBin_conj (z : ℂ) :
    whitenBin ((starRingEnd ℂ) z) = (starRingEnd ℂ) (whitenBin z) := by
  unfold whitenBin
  rw [map_div₀, Complex.abs_conj, Complex.conj_ofReal]

theorem whitenBin_phase (n : ℕ) (a : ℤ) (r : ℝ) (hr : 0 ≤ r) :
    whitenBin (zeta n ^ a * (r : ℂ)) = zeta n ^ a * ((r / (r + eps) : ℝ) : ℂ) := by
  unfold whitenBin
  rw [map_mul, abs_zeta_zpow, one_mul, Complex.abs_ofReal, abs_of_nonneg hr]
  push_cast
  ring

/-! ### The whitened half spectrum, bin by bin -/

theorem rfft_length (x : List ℝ) (n : ℕ) : (rfft x n).length = n / 2 + 1 := by
  unfold rfft
  rw [List.length_map, List.length_range]

theorem rfft_getElem (x : List ℝ) (n k : ℕ) (h : k < (rfft x n).length) :
    (rfft x n)[k] = dftBin n (sampleAt x) (k : ℤ) := by
  unfold rfft at h ⊢
  rw [List.getElem_map, List.getElem_range]

theorem gccW_length (sig refsig : List ℝ) (n : ℕ) :
    (((rfft sig n).zipWith (fun a b => a * (starRingEnd ℂ) b) (rfft refsig n)).map
      whitenBin).length = n / 2 + 1 := by
  rw [List.length_map, List.length_zipWith, rfft_length, rfft_length, min_self]

theorem gccW_getD (sig refsig : List ℝ) (n k : ℕ) (hk : k ≤ n / 2) :
    (((rfft sig n).zipWith (fun a b => a * (starRingEnd ℂ) b) (rfft refsig n)).map
      whitenBin).getD k 0
      = whitenBin (dftBin n (sampleAt sig) (k : ℤ) *
          (starRingEnd ℂ) (dftBin n (sampleAt refsig) (k : ℤ))) := by
  have h1 : k < (((rfft sig n).zipWith (fun a b => a * (starRingEnd ℂ) b)
      (rfft refsig n)).map whitenBin).length := by
    rw [gccW_length]
    omega
  rw [List.getD_eq_getElem _ _ h1, List.getElem_map, List.getElem_zipWith,
    rfft_getElem, rfft_getElem]

theorem gccW_hermBin (sig refsig : List ℝ) (n : ℕ) (hn : 0 < n) (k : ℕ) (hk : k < n) :
    hermBin (((rfft sig n).zipWith (fun a b => a * (starRingEnd ℂ) b)
        (rfft refsig n)).map whitenBin) n k
      = whitenBin (dftBin n (sampleAt sig) (k : ℤ) *
          (starRingEnd ℂ) (dftBin n (sampleAt refsig) (k : ℤ))) := by
  unfold hermBin
  split_ifs with h
  · exact gccW_getD sig refsig n k h
  · push_neg at h
    have hnk : n - k ≤ n / 2 := by omega
    rw [gccW_getD sig refsig n (n - k) hnk, ← whitenBin_conj]
    congr 1
    rw [map_mul, Complex.conj_conj, dft_real_conj sig n hn k (by omega)]
    congr 1
    rw [← dft_real_conj refsig n hn k (by omega), Complex.conj_conj]

theorem irfft_length (v : List ℂ) (N : ℕ) : (irfft v N).length = N := by
  unfold irfft
  rw [List.length_map, List.length_range]

theorem gccCC_length (sig refsig : List ℝ) (interp : ℕ) :
    (gccCC sig refsig interp).length = interp * (sig.length + refsig.length) := by
  unfold gccCC
  exact irfft_length _ _

theorem irfft_getD (v : List ℂ) (N j : ℕ) (hj : j < N) :
    (irfft v N).getD j 0
      = ((N : ℂ)⁻¹ * ∑ k ∈ Finset.range N, hermBin v N k * zeta N ^ ((j : ℤ) * k)).re := by
  have h1 : j < (irfft v N).length := by
    rw [irfft_length]
    exact hj
  unfold irfft at h1 ⊢
  rw [List.getD_eq_getElem _ _ h1, List.getElem_map, List.getElem_range]

/-- Under the pure-delay phase relation between the two spectra, the
whitened cross-correlation of `gcc_phat` (at `interp = 1`) is the inverse
transform of the nonnegative spectrum `normSq Y / (normSq Y + eps)`
evaluated at lag `j - d`. -/
theorem gccCC_getD (sig refsig : List ℝ) (d : ℕ)
    (hn : 0 < sig.length + refsig.length)
    (hrel : ∀ k, k < sig.length + refsig.length →
      dftBin (sig.length + refsig.length) (sampleAt sig) (k : ℤ)
        = zeta (sig.length + refsig.length) ^ (-((d : ℤ) * k)) *
            dftBin (sig.length + refsig.length) (sampleAt refsig) (k : ℤ))
    (j : ℕ) (hj : j < sig.length + refsig.length) :
    (gccCC sig refsig 1).getD j 0
      = Afun (sig.length + refsig.length)
          (fun k =>
            Complex.normSq (dftBin (sig.length + refsig.length) (sampleAt refsig) (k : ℤ))
              / (Complex.normSq
                  (dftBin (sig.length + refsig.length) (sampleAt refsig) (k : ℤ)) + eps))
          ((j : ℤ) - d) := by
  set n := sig.length + refsig.length with hndef
  unfold gccCC
  rw [show ((1 : ℕ) * n) = n by omega]
  rw [irfft_getD _ n j hj]
  unfold Afun invBin
  congr 1
  congr 1
  refine Finset.sum_congr rfl fun k hk => ?_
  have hkn : k < n := Finset.mem_range.mp hk
  have hr : 0 ≤ Complex.normSq (dftBin n (sampleAt refsig) (k : ℤ)) :=
    Complex.normSq_nonneg _
  rw [gccW_hermBin sig refsig n hn k hkn, hrel k hkn, mul_assoc, Complex.mul_conj,
    whitenBin_phase n _ _ hr, mul_right_comm, ← zpow_add₀ (zeta_ne_zero n), mul_comm]
  congr 2
  ring

/-! ### Active bins of a non-degenerate signal -/

theorem sampleAt_zero_of_le (x : List ℝ) (j : ℕ) (hj : x.length ≤ j) :
    sampleAt x j = 0 := by
  unfold sampleAt
  rw [List.getD_eq_default _ _ hj]
  simp

theorem sampleAt_all_zero (x : List ℝ) (h : ∀ j, sampleAt x j = 0) :
    ∀ v ∈ x, v = 0 := by
  intro v hv
  obtain ⟨idx, hidx⟩ := List.mem_iff_get.mp hv
  have h2 := h idx
  unfold sampleAt at h2
  rw [List.getD_eq_getElem x 0 idx.isLt] at h2
  rw [← hidx, List.get_eq_getElem]
  exact_mod_cast h2

theorem exists_active_bin (x : List ℝ) (n : ℕ) (hn : 0 < n) (hlen : x.length ≤ n)
    (hnz : ∃ v ∈ x, v ≠ 0) :
    ∃ k, k < n ∧ dftBin n (sampleAt x) (k : ℤ) ≠ 0 := by
  by_contra hno
  push_neg at hno
  obtain ⟨v, hv, hvne⟩ := hnz
  obtain ⟨idx, hidx⟩ := List.mem_iff_get.mp hv
  have hix : (idx : ℕ) < n := lt_of_lt_of_le idx.isLt hlen
  have h0 : sampleAt x idx = 0 := by
    rw [← dft_inversion n hn (sampleAt x) idx hix]
    unfold invBin
    rw [Finset.sum_eq_zero fun k hk => by
      show dftBin n (sampleAt x) (k : ℤ) * zeta n ^ (((idx : ℕ) : ℤ) * k) = 0
      rw [hno k (Finset.mem_range.mp hk), zero_mul], mul_zero]
  apply hvne
  unfold sampleAt at h0
  rw [List.getD_eq_getElem x 0 idx.isLt] at h0
  rw [← hidx, List.get_eq_getElem]
  exact_mod_cast h0

/-- Strict domination of the zero-lag value of the whitened
autocorrelation: for a non-degenerate reference padded to at least twice
its length, every lag `t` that is not a multiple of `n` has a strictly
smaller absolute correlation than lag 0. -/
theorem Afun_strict_bins (refsig : List ℝ) (n : ℕ)
    (hn : 0 < n) (hL : 2 * refsig.length ≤ n)
    (hnz : ∃ v ∈ refsig, v ≠ 0)
    (t : ℤ) (ht : ¬ (n : ℤ) ∣ t) :
    |Afun n (fun k => Complex.normSq (dftBin n (sampleAt refsig) (k : ℤ))
        / (Complex.normSq (dftBin n (sampleAt refsig) (k : ℤ)) + eps)) t|
      < Afun n (fun k => Complex.normSq (dftBin n (sampleAt refsig) (k : ℤ))
        / (Complex.normSq (dftBin n (sampleAt refsig) (k : ℤ)) + eps)) 0 := by
  have hepos := eps_pos
  set a : ℕ → ℝ := fun k => Complex.normSq (dftBin n (sampleAt refsig) (k : ℤ))
      / (Complex.normSq (dftBin n (sampleAt refsig) (k : ℤ)) + eps) with hadef
  have ha : ∀ k, 0 ≤ a k := by
    intro k
    have h1 := Complex.normSq_nonneg (dftBin n (sampleAt refsig) (k : ℤ))
    rw [hadef]
    positivity
  have hane : ∀ k, a k ≠ 0 → dftBin n (sampleAt refsig) (k : ℤ) ≠ 0 := by
    intro k h hzero
    apply h
    rw [hadef]
    simp only [hzero, map_zero, zero_div]
  have hsupp : ∀ j, refsig.length ≤ j → sampleAt refsig j = 0 := fun j hj =>
    sampleAt_zero_of_le refsig j hj
  have hcontra : (∀ j, sampleAt refsig j = 0) → False := by
    intro hzero
    obtain ⟨v, hv, hvne⟩ := hnz
    exact hvne (sampleAt_all_zero refsig hzero v hv)
  apply Afun_strict n hn a ha t
  · by_contra hno
    push_neg at hno
    have hpair : ∀ k, k < n → dftBin n (sampleAt refsig) (k : ℤ) ≠ 0 →
        ∀ l, l < n → dftBin n (sampleAt refsig) (l : ℤ) ≠ 0 →
        (n : ℤ) ∣ t * ((k : ℤ) - l) := by
      intro k hk hknz l hl hlnz
      have hak : a k ≠ 0 := by
        rw [hadef]
        have hs : Complex.normSq (dftBin n (sampleAt refsig) (k : ℤ)) ≠ 0 :=
          fun h0 => hknz (Complex.normSq_eq_zero.mp h0)
        have hspos : 0 < Complex.normSq (dftBin n (sampleAt refsig) (k : ℤ)) :=
          lt_of_le_of_ne (Complex.normSq_nonneg _) (Ne.symm hs)
        positivity
      have hal2 : a l ≠ 0 := by
        rw [hadef]
        have hs : Complex.normSq (dftBin n (sampleAt refsig) (l : ℤ)) ≠ 0 :=
          fun h0 => hlnz (Complex.normSq_eq_zero.mp h0)
        have hspos : 0 < Complex.normSq (dftBin n (sampleAt refsig) (l : ℤ)) :=
          lt_of_le_of_ne (Complex.normSq_nonneg _) (Ne.symm hs)
        positivity
      have hdk : (n : ℤ) ∣ t * k := (cos_angle_eq_one_iff n hn (t * k)).mp (hno k hk hak)
      have hdl : (n : ℤ) ∣ t * l := (cos_angle_eq_one_iff n hn (t * l)).mp (hno l hl (hal2))
      rw [show t * ((k : ℤ) - l) = t * k - t * l by ring]
      exact dvd_sub hdk hdl
    exact hcontra (dft_support_coset n refsig.length (sampleAt refsig) t hn hL hsupp ht hpair)
  · by_contra hno
    push_neg at hno
    have hpair : ∀ k, k < n → dftBin n (sampleAt refsig) (k : ℤ) ≠ 0 →
        ∀ l, l < n → dftBin n (sampleAt refsig) (l : ℤ) ≠ 0 →
        (n : ℤ) ∣ t * ((k : ℤ) - l) := by
      intro k hk hknz l hl hlnz
      have hak : a k ≠ 0 := by
        rw [hadef]
        have hs : Complex.normSq (dftBin n (sampleAt refsig) (k : ℤ)) ≠ 0 :=
          fun h0 => hknz (Complex.normSq_eq_zero.mp h0)
        have hspos : 0 < Complex.normSq (dftBin n (sampleAt refsig) (k : ℤ)) :=
          lt_of_le_of_ne (Complex.normSq_nonneg _) (Ne.symm hs)
        positivity
      have hal2 : a l ≠ 0 := by
        rw [hadef]
        have hs : Complex.normSq (dftBin n (sampleAt refsig) (l : ℤ)) ≠ 0 :=
          fun h0 => hlnz (Complex.normSq_eq_zero.mp h0)
        have hspos : 0 < Complex.normSq (dftBin n (sampleAt refsig) (l : ℤ)) :=
          lt_of_le_of_ne (Complex.normSq_nonneg _) (Ne.symm hs)
        positivity
      obtain ⟨zk, hzk⟩ := cos_angle_eq_neg_one_imp n hn (t * k) (hno k hk hak)
      obtain ⟨zl, hzl⟩ := cos_angle_eq_neg_one_imp n hn (t * l) (hno l hl hal2)
      refine ⟨zk - zl, ?_⟩
      have hC : t * ((k : ℤ) - l) = t * k - t * l := by ring
      have hF : (n : ℤ) * (zk - zl) = n * zk - n * zl := by ring
      have hzk2 : 2 * (t * (k : ℤ)) = 2 * ((n : ℤ) * zk) + n := by
        rw [hzk]
        ring
      have hzl2 : 2 * (t * (l : ℤ)) = 2 * ((n : ℤ) * zl) + n := by
        rw [hzl]
        ring
      omega
    exact hcontra (dft_support_coset n refsig.length (sampleAt refsig) t hn hL hsupp ht hpair)

/-! ### The Python rotation, entry by entry -/

theorem gccRotate_pos (cc : List ℝ) (M : ℕ) (hM : 1 ≤ M) :
    gccRotate cc (M : ℤ) = cc.drop (cc.length - M) ++ cc.take (M + 1) := by
  unfold gccRotate pyDropFrom pyTakeTo
  rw [if_neg (by omega), if_pos (by omega)]
  congr 2
  all_goals omega

theorem gccRotate_length (cc : List ℝ) (M : ℕ) (hM : 1 ≤ M) (hMlen : M + 1 ≤ cc.length) :
    (gccRotate cc (M : ℤ)).length = 2 * M + 1 := by
  rw [gccRotate_pos cc M hM, List.length_append, List.length_drop, List.length_take]
  omega

theorem gccRotate_getD_left (cc : List ℝ) (M : ℕ) (hM : 1 ≤ M) (hMlen : M + 1 ≤ cc.length)
    (p : ℕ) (hp : p < M) :
    (gccRotate cc (M : ℤ)).getD p 0 = cc.getD (cc.length - M + p) 0 := by
  rw [gccRotate_pos cc M hM]
  have hdl : (cc.drop (cc.length - M)).length = M := by
    rw [List.length_drop]
    omega
  rw [List.getD_append _ _ _ _ (by omega)]
  have hp2 : p < (cc.drop (cc.length - M)).length := by omega
  rw [List.getD_eq_getElem _ _ hp2, List.getElem_drop,
    List.getD_eq_getElem _ _ (by omega : cc.length - M + p < cc.length)]

theorem gccRotate_getD_right (cc : List ℝ) (M : ℕ) (hM : 1 ≤ M) (hMlen : M + 1 ≤ cc.length)
    (q : ℕ) (hq : q ≤ M) :
    (gccRotate cc (M : ℤ)).getD (M + q) 0 = cc.getD q 0 := by
  rw [gccRotate_pos cc M hM]
  have hdl : (cc.drop (cc.length - M)).length = M := by
    rw [List.length_drop]
    omega
  rw [List.getD_append_right _ _ _ _ (by omega), hdl]
  have hq2 : M + q - M = q := by omega
  rw [hq2]
  have hq3 : q < (cc.take (M + 1)).length := by
    rw [List.length_take]
    omega
  rw [List.getD_eq_getElem _ _ hq3, List.getElem_take,
    List.getD_eq_getElem _ _ (by omega : q < cc.length)]

theorem getD_map_abs (l : List ℝ) (i : ℕ) (hi : i < l.length) :
    (l.map fun v => |v|).getD i 0 = |l.getD i 0| := by
  have h1 : i < (l.map fun v => |v|).length := by
    rw [List.length_map]
    exact hi
  rw [List.getD_eq_getElem _ _ h1, List.getElem_map, List.getD_eq_getElem _ _ hi]

/-! ### The master peak theorem for a pure-delay phase relation -/

/-- If the two spectra differ by the pure delay phase `ζ^(-dk)` and the
reference is non-degenerate, `gcc_phat` (with `max_tau = None` and
`interp = 1`) locates the peak exactly at lag `d`. -/
theorem gcc_phat_phase_shift (sig refsig : List ℝ) (fs : ℝ) (d : ℕ)
    (hlen : refsig.length ≤ sig.length)
    (hnz : ∃ v ∈ refsig, v ≠ 0)
    (hd : 2 * d < sig.length + refsig.length)
    (hrel : ∀ k, k < sig.length + refsig.length →
      dftBin (sig.length + refsig.length) (sampleAt sig) (k : ℤ)
        = zeta (sig.length + refsig.length) ^ (-((d : ℤ) * k)) *
            dftBin (sig.length + refsig.length) (sampleAt refsig) (k : ℤ)) :
    ∃ cc, gcc_phat sig refsig fs none 1 = Except.ok ((d : ℝ) / fs, cc) := by
  obtain ⟨v0, hv0, hv0ne⟩ := hnz
  have hm1 : 1 ≤ refsig.length := by
    rcases refsig with _ | _
    · simp at hv0
    · simp
  set n := sig.length + refsig.length with hndef
  have hn : 0 < n := by omega
  have hn2 : 2 ≤ n := by omega
  set M : ℕ := n / 2 with hMdef
  have hM1 : 1 ≤ M := by omega
  have hMn : M + 1 ≤ n := by omega
  have hdM : d ≤ M := by omega
  set a : ℕ → ℝ := fun k => Complex.normSq (dftBin n (sampleAt refsig) (k : ℤ))
      / (Complex.normSq (dftBin n (sampleAt refsig) (k : ℤ)) + eps) with hadef
  have ha : ∀ k, 0 ≤ a k := by
    intro k
    have h1 := Complex.normSq_nonneg (dftBin n (sampleAt refsig) (k : ℤ))
    have h2 := eps_pos
    rw [hadef]
    positivity
  set cc := gccCC sig refsig 1 with hccdef
  have hcclen : cc.length = n := by
    rw [hccdef, gccCC_length]
    omega
  have hccval : ∀ j, j < n → cc.getD j 0 = Afun n a ((j : ℤ) - d) := by
    intro j hj
    rw [hccdef]
    exact gccCC_getD sig refsig d hn hrel j hj
  have habs : ∀ t : ℤ, |Afun n a t| ≤ Afun n a 0 := Afun_abs_le n a ha
  have hstrict : ∀ t : ℤ, ¬ (n : ℤ) ∣ t → |Afun n a t| < Afun n a 0 := fun t ht =>
    Afun_strict_bins refsig n hn (by omega) ⟨v0, hv0, hv0ne⟩ t ht
  have hMlen : M + 1 ≤ cc.length := by omega
  set al := (gccRotate cc (M : ℤ)).map (fun v => |v|) with haldef
  have hrotlen : (gccRotate cc (M : ℤ)).length = 2 * M + 1 :=
    gccRotate_length cc M hM1 hMlen
  have hallen : al.length = 2 * M + 1 := by
    rw [haldef, List.length_map, hrotlen]
  have hpeak : al.getD (M + d) 0 = |Afun n a 0| := by
    rw [haldef, getD_map_abs _ _ (by omega), gccRotate_getD_right cc M hM1 hMlen d hdM,
      hccval d (by omega), sub_self]
  have hndvd_left : ∀ j, j < M → ¬ (n : ℤ) ∣ (((cc.length - M + j : ℕ) : ℤ) - d) := by
    intro j hj hdvd
    have h1 : 0 < ((cc.length - M + j : ℕ) : ℤ) - d := by
      push_cast [hcclen]
      omega
    have h2 : ((cc.length - M + j : ℕ) : ℤ) - d < n := by
      push_cast [hcclen]
      omega
    have habs2 : |((cc.length - M + j : ℕ) : ℤ) - d| < n := by
      rw [abs_lt]
      omega
    have := Int.eq_zero_of_abs_lt_dvd hdvd habs2
    omega
  have hndvd_right : ∀ q, q < d → ¬ (n : ℤ) ∣ ((q : ℤ) - d) := by
    intro q hq hdvd
    have habs2 : |(q : ℤ) - d| < n := by
      rw [abs_lt]
      constructor <;> [push_cast; push_cast] <;> omega
    have := Int.eq_zero_of_abs_lt_dvd hdvd habs2
    omega
  have hbefore : ∀ j, j < M + d → al.getD j 0 < al.getD (M + d) 0 := by
    intro j hj
    rw [hpeak]
    by_cases hjM : j < M
    · rw [haldef, getD_map_abs _ _ (by omega),
        gccRotate_getD_left cc M hM1 hMlen j hjM, hccval _ (by omega)]
      exact lt_of_lt_of_le (hstrict _ (hndvd_left j hjM)) (le_abs_self _)
    · have hq : j - M < d := by omega
      have hje : j = M + (j - M) := by omega
      rw [haldef, getD_map_abs _ _ (by omega), hje,
        gccRotate_getD_right cc M hM1 hMlen (j - M) (by omega), hccval _ (by omega)]
      exact lt_of_lt_of_le (hstrict _ (hndvd_right (j - M) hq)) (le_abs_self _)
  have hall : ∀ j, j < al.length → al.getD j 0 ≤ al.getD (M + d) 0 := by
    intro j hj
    rw [hpeak]
    rw [hallen] at hj
    by_cases hjM : j < M
    · rw [haldef, getD_map_abs _ _ (by omega),
        gccRotate_getD_left cc M hM1 hMlen j hjM, hccval _ (by omega)]
      exact (habs _).trans (le_abs_self _)
    · have hje : j = M + (j - M) := by omega
      rw [haldef, getD_map_abs _ _ (by omega), hje,
        gccRotate_getD_right cc M hM1 hMlen (j - M) (by omega), hccval _ (by omega)]
      exact (habs _).trans (le_abs_self _)
  have hargmax : npArgmax al = M + d :=
    npArgmax_eq al (M + d) (by omega) hbefore hall
  refine ⟨gccRotate cc (M : ℤ), ?_⟩
  have hne : ¬ (n = 0) := by omega
  simp only [gcc_phat, ← hndef, if_neg hne, gccMaxShift]
  have h1n : (1 : ℕ) * n = n := one_mul n
  rw [h1n, ← hMdef, ← hccdef, ← haldef, hargmax]
  congr 2
  all_goals push_cast
  all_goals ring

/-! ### The pure-delay phase relation for a zero-padded delay -/

theorem sampleAt_replicate_append_lt (d : ℕ) (x : List ℝ) (j : ℕ) (hj : j < d) :
    sampleAt (List.replicate d 0 ++ x) j = 0 := by
  unfold sampleAt
  rw [List.getD_append _ _ _ _ (by simpa using hj)]
  have : (List.replicate d (0 : ℝ)).getD j 0 = 0 := by
    rw [List.getD_eq_getElem _ _ (by simpa using hj)]
    simp
  rw [this]
  simp

theorem sampleAt_replicate_append_ge (d : ℕ) (x : List ℝ) (i : ℕ) :
    sampleAt (List.replicate d 0 ++ x) (d + i) = sampleAt x i := by
  unfold sampleAt
  rw [List.getD_append_right _ _ _ _ (by simp)]
  simp

theorem dft_shift_padded (refsig : List ℝ) (d : ℕ) (n : ℕ)
    (hn : refsig.length + d ≤ n) (k : ℕ) :
    dftBin n (sampleAt (List.replicate d 0 ++ refsig)) (k : ℤ)
      = zeta n ^ (-((d : ℤ) * k)) * dftBin n (sampleAt refsig) (k : ℤ) := by
  have hz := zeta_ne_zero n
  unfold dftBin
  rw [Finset.mul_sum]
  have hrhs : ∀ j ∈ Finset.range n,
      zeta n ^ (-((d : ℤ) * k)) * (sampleAt refsig j * zeta n ^ (-((j : ℤ) * k)))
        = sampleAt refsig j * zeta n ^ (-(((d + j : ℕ) : ℤ) * k)) := by
    intro j _
    rw [mul_comm (zeta n ^ (-((d : ℤ) * k))) _, mul_assoc, ← zpow_add₀ hz]
    congr 2
    push_cast
    ring
  rw [Finset.sum_congr rfl hrhs]
  -- split both sums at the boundary
  have hdn : d ≤ n := by omega
  have hLn : n - d ≤ n := by omega
  rw [Finset.range_eq_Ico,
    ← Finset.sum_Ico_consecutive
      (fun j => sampleAt (List.replicate d 0 ++ refsig) j * zeta n ^ (-((j : ℤ) * k)))
      (Nat.zero_le d) hdn,
    ← Finset.sum_Ico_consecutive
      (fun j => sampleAt refsig j * zeta n ^ (-(((d + j : ℕ) : ℤ) * k)))
      (Nat.zero_le (n - d)) hLn]
  have hzero1 : ∑ j ∈ Finset.Ico 0 d,
      sampleAt (List.replicate d 0 ++ refsig) j * zeta n ^ (-((j : ℤ) * k)) = 0 := by
    apply Finset.sum_eq_zero
    intro j hj
    rw [sampleAt_replicate_append_lt d refsig j (Finset.mem_Ico.mp hj).2, zero_mul]
  have hzero2 : ∑ j ∈ Finset.Ico (n - d) n,
      sampleAt refsig j * zeta n ^ (-(((d + j : ℕ) : ℤ) * k)) = 0 := by
    apply Finset.sum_eq_zero
    intro j hj
    rw [sampleAt_zero_of_le refsig j (by
      have := (Finset.mem_Ico.mp hj).1
      omega), zero_mul]
  rw [hzero1, hzero2, zero_add, add_zero]
  rw [Finset.sum_Ico_eq_sum_range]
  rw [show Finset.Ico 0 (n - d) = Finset.range (n - d) by rw [Finset.range_eq_Ico]]
  refine Finset.sum_congr rfl fun i _ => ?_
  rw [sampleAt_replicate_append_ge d refsig i]

/-! ### Claim C8: autocorrelation peaks at zero lag -/

/-- Claim C8: for every non-degenerate signal `s` (non-empty and not
identically zero), the delay estimator applied to the pair `(s, s)` —
`gcc_phat(s, s, fs)` — returns a lag of exactly 0. -/
theorem claim8_self_lag_zero (s : List ℝ) (fs : ℝ) (hnz : ∃ v ∈ s, v ≠ 0) :
    ∃ cc, gcc_phat s s fs none 1 = Except.ok (0, cc) := by
  obtain ⟨v0, hv0, hv0ne⟩ := hnz
  have hm : 1 ≤ s.length := List.length_pos.mpr (List.ne_nil_of_mem hv0)
  have hrel : ∀ k, k < s.length + s.length →
      dftBin (s.length + s.length) (sampleAt s) (k : ℤ)
        = zeta (s.length + s.length) ^ (-(((0 : ℕ) : ℤ) * k)) *
            dftBin (s.length + s.length) (sampleAt s) (k : ℤ) := by
    intro k _
    norm_num
  obtain ⟨cc, hcc⟩ := gcc_phat_phase_shift s s fs 0 le_rfl ⟨v0, hv0, hv0ne⟩
    (by omega) hrel
  refine ⟨cc, ?_⟩
  rw [hcc]
  norm_num

/-- Witness for C8 at the concrete signal `[1]`. -/
theorem claim8_self_lag_zero_witness :
    ∃ cc, gcc_phat [(1 : ℝ)] [(1 : ℝ)] 1 none 1 = Except.ok (0, cc) :=
  claim8_self_lag_zero [1] 1 ⟨1, by simp, one_ne_zero⟩

/-! ### Claim C9: circular delays and the estimator -/

/-- Claim C9 (amended): for a reference delayed by `d ≥ 0` samples without
wraparound — `d` zero samples prepended, `2·d` less than the analysis
window `len(sig) + len(ref)`, i.e. `d` less than twice the reference
length — the estimator returns exactly `d` samples of lag (in particular
within ±1 of `d`). -/
theorem claim9_linear_delay_exact (refsig : List ℝ) (d : ℕ) (fs : ℝ)
    (hnz : ∃ v ∈ refsig, v ≠ 0) (hd : d < 2 * refsig.length) :
    ∃ cc, gcc_phat (List.replicate d 0 ++ refsig) refsig fs none 1
      = Except.ok ((d : ℝ) / fs, cc) := by
  obtain ⟨v0, hv0, hv0ne⟩ := hnz
  have hm : 1 ≤ refsig.length := List.length_pos.mpr (List.ne_nil_of_mem hv0)
  have hlen : refsig.length ≤ (List.replicate d 0 ++ refsig).length := by
    simp
  have hrel : ∀ k, k < (List.replicate d 0 ++ refsig).length + refsig.length →
      dftBin ((List.replicate d 0 ++ refsig).length + refsig.length)
          (sampleAt (List.replicate d 0 ++ refsig)) (k : ℤ)
        = zeta ((List.replicate d 0 ++ refsig).length + refsig.length) ^
            (-((d : ℤ) * k)) *
            dftBin ((List.replicate d 0 ++ refsig).length + refsig.length)
              (sampleAt refsig) (k : ℤ) := by
    intro k _
    exact dft_shift_padded refsig d _ (by simp; omega) k
  exact gcc_phat_phase_shift (List.replicate d 0 ++ refsig) refsig fs d hlen
    ⟨v0, hv0, hv0ne⟩ (by simp; omega) hrel

/-- Witness for the amended C9 at the impulse `[1]` delayed by one sample. -/
theorem claim9_linear_delay_exact_witness :
    ∃ cc, gcc_phat (List.replicate 1 0 ++ [(1 : ℝ)]) [(1 : ℝ)] 1 none 1
      = Except.ok (((1 : ℕ) : ℝ) / 1, cc) :=
  claim9_linear_delay_exact [1] 1 1 ⟨1, by simp, one_ne_zero⟩ (by simp)

theorem sampleAt_one_eq_impulse : sampleAt [(1 : ℝ)] = sampleAt [1, 0, 0, 0] := by
  funext j
  rcases j with _ | _ | _ | _ | j <;> rfl

/-- Counterexample to claim C9 as stated: with the impulse reference
`[1,0,0,0]` circularly delayed by `k = -1` samples (so `|k| = 1 ≤ n/4 = 2`),
the estimator returns lag `3` samples — not within ±1 of `-1`. -/
theorem claim9_counterexample :
    circShift [1, 0, 0, 0] (-1) = [0, 0, 0, 1]
    ∧ |(-1 : ℤ)| ≤ (4 + 4) / 4
    ∧ (∃ cc, gcc_phat [0, 0, 0, 1] [1, 0, 0, 0] 1 none 1 = Except.ok (3, cc))
    ∧ ¬ |(3 : ℝ) - (-1)| ≤ 1 := by
  refine ⟨by rfl, by norm_num, ?_, by rw [abs_of_nonneg] <;> norm_num⟩
  have hrel : ∀ k, k < ([(0 : ℝ), 0, 0, 1] : List ℝ).length +
      ([(1 : ℝ), 0, 0, 0] : List ℝ).length →
      dftBin (([(0 : ℝ), 0, 0, 1] : List ℝ).length + ([(1 : ℝ), 0, 0, 0] : List ℝ).length)
          (sampleAt [0, 0, 0, 1]) (k : ℤ)
        = zeta (([(0 : ℝ), 0, 0, 1] : List ℝ).length +
              ([(1 : ℝ), 0, 0, 0] : List ℝ).length) ^ (-(((3 : ℕ) : ℤ) * k)) *
            dftBin (([(0 : ℝ), 0, 0, 1] : List ℝ).length +
              ([(1 : ℝ), 0, 0, 0] : List ℝ).length) (sampleAt [1, 0, 0, 0]) (k : ℤ) := by
    intro k _
    have h1 : ([(0 : ℝ), 0, 0, 1] : List ℝ) = List.replicate 3 0 ++ [1] := by rfl
    rw [h1, ← sampleAt_one_eq_impulse]
    exact dft_shift_padded [1] 3 _ (by norm_num) k
  obtain ⟨cc, hcc⟩ := gcc_phat_phase_shift [0, 0, 0, 1] [1, 0, 0, 0] 1 3
    (by norm_num) ⟨1, by simp, one_ne_zero⟩ (by norm_num) hrel
  refine ⟨cc, ?_⟩
  rw [hcc]
  norm_num

/-! ### Claim C1: the orchestrator's latency arithmetic -/

/-- Claim C1: the published latency is `dt - delay` with
`dt = offset·1000/48000` and `delay = (outputStartTime - inputStartTime)
·1000 - blockDurationMs` (every completed `Task.exec` run stores exactly
that); and in the claimed scenario — capture equal to the probe delayed by
240 samples at 48 kHz, a 10 ms callback-start skew and 4 ms blocks — the
estimator returns 240, `dt = 5` ms, `delay = 6` ms, `latency = -1` ms. -/
theorem claim1_latency_formula (refsig : List ℝ) (t0 : ℝ)
    (hm : 120 < refsig.length) (hnz : ∃ v ∈ refsig, v ≠ 0) :
    (∀ offset ot it per : ℝ,
      execDt offset 48000 - execDelay ot it per
        = offset * 1000 / 48000 - ((ot - it) * 1000 - per))
    ∧ (∃ cc, gcc_phat (List.replicate 240 0 ++ refsig) refsig 1 none 1
        = Except.ok (240, cc))
    ∧ execDt 240 48000 = 5
    ∧ execDelay (t0 + 1 / 100) t0 4 = 6
    ∧ execDt 240 48000 - execDelay (t0 + 1 / 100) t0 4 = -1
    ∧ (∀ (st : TaskState) (dm : DeviceManagerState) (env : RunEnv)
        (inm onm : String) (st2 : TaskState) (r : ℤ),
        Task.exec st dm env inm onm = (st2, Except.ok r) →
        ∃ (offset : ℝ) (cc sg rf : List ℝ) (t_in t_out : ℝ),
          gcc_phat sg rf 1 none 1 = Except.ok (offset, cc)
          ∧ st2.input_time = t_in ∧ st2.output_time = t_out
          ∧ st2.latency = execDt offset 48000 - execDelay t_out t_in 4) := by
  have hdt : execDt 240 48000 = 5 := by
    unfold execDt
    norm_num
  have hdelay : execDelay (t0 + 1 / 100) t0 4 = 6 := by
    unfold execDelay
    ring_nf
  refine ⟨fun offset ot it per => rfl, ?_, hdt, hdelay, by rw [hdt, hdelay]; norm_num, ?_⟩
  · obtain ⟨v0, hv0, hv0ne⟩ := hnz
    have hlen2 : refsig.length ≤ (List.replicate 240 0 ++ refsig).length := by
      rw [List.length_append, List.length_replicate]
      omega
    have hrel : ∀ k, k < (List.replicate 240 0 ++ refsig).length + refsig.length →
        dftBin ((List.replicate 240 0 ++ refsig).length + refsig.length)
            (sampleAt (List.replicate 240 0 ++ refsig)) (k : ℤ)
          = zeta ((List.replicate 240 0 ++ refsig).length + refsig.length) ^
              (-(((240 : ℕ) : ℤ) * k)) *
              dftBin ((List.replicate 240 0 ++ refsig).length + refsig.length)
                (sampleAt refsig) (k : ℤ) := by
      intro k _
      exact dft_shift_padded refsig 240 _
        (by rw [List.length_append, List.length_replicate]; omega) k
    obtain ⟨cc, hcc⟩ := gcc_phat_phase_shift (List.replicate 240 0 ++ refsig) refsig 1
      240 hlen2 ⟨v0, hv0, hv0ne⟩
      (by rw [List.length_append, List.length_replicate]; omega) hrel
    refine ⟨cc, ?_⟩
    rw [hcc]
    norm_num
  · intro st dm env inm onm st2 r h
    unfold Task.exec at h
    dsimp only at h
    split at h
    · injection h with h1 h2
      exact Except.noConfusion h2
    split at h
    · injection h with h1 h2
      exact Except.noConfusion h2
    split at h
    case _ =>
      split at h
      · injection h with h1 h2
        exact Except.noConfusion h2
      case _ blocks t_in t_out hstr =>
        split at h
        · injection h with h1 h2
          exact Except.noConfusion h2
        case _ offset cc heq =>
          injection h with h1 h2
          refine ⟨offset, cc, _, _, t_in, t_out, heq, ?_, ?_, ?_⟩
          all_goals rw [← h1]
          all_goals norm_num
    case _ =>
      injection h with h1 h2
      exact Except.noConfusion h2

/-- Witness for C1 at a concrete 121-sample reference and `t0 = 0`. -/
theorem claim1_latency_formula_witness :
    (∀ offset ot it per : ℝ,
      execDt offset 48000 - execDelay ot it per
        = offset * 1000 / 48000 - ((ot - it) * 1000 - per))
    ∧ (∃ cc, gcc_phat (List.replicate 240 0 ++ List.replicate 121 (1 : ℝ))
          (List.replicate 121 (1 : ℝ)) 1 none 1 = Except.ok (240, cc))
    ∧ execDt 240 48000 = 5
    ∧ execDelay (0 + 1 / 100) 0 4 = 6
    ∧ execDt 240 48000 - execDelay (0 + 1 / 100) 0 4 = -1
    ∧ (∀ (st : TaskState) (dm : DeviceManagerState) (env : RunEnv)
        (inm onm : String) (st2 : TaskState) (r : ℤ),
        Task.exec st dm env inm onm = (st2, Except.ok r) →
        ∃ (offset : ℝ) (cc sg rf : List ℝ) (t_in t_out : ℝ),
          gcc_phat sg rf 1 none 1 = Except.ok (offset, cc)
          ∧ st2.input_time = t_in ∧ st2.output_time = t_out
          ∧ st2.latency = execDt offset 48000 - execDelay t_out t_in 4) :=
  claim1_latency_formula (List.replicate 121 (1 : ℝ)) 0 (by simp)
    ⟨1, by simp, one_ne_zero⟩

/-! ### Claim C10: a zero max_tau bound is ignored -/

/-- Claim C10: calling `gcc_phat` with `max_tau = 0` returns exactly the
same lag and correlation sequence as `max_tau = None` — Python truthiness
ignores a zero bound, and the window stays `int(interp·n/2)`. -/
theorem claim10_max_tau_zero (sig refsig : List ℝ) (fs : ℝ) (interp : ℕ) :
    gcc_phat sig refsig fs (some 0) interp = gcc_phat sig refsig fs none interp
    ∧ gccMaxShift (sig.length + refsig.length) interp fs (some 0)
        = ((interp * (sig.length + refsig.length) / 2 : ℕ) : ℤ) := by
  have h : gccMaxShift (sig.length + refsig.length) interp fs (some 0)
      = gccMaxShift (sig.length + refsig.length) interp fs none := by
    unfold gccMaxShift
    dsimp only
    rw [if_pos rfl]
  constructor
  · simp only [gcc_phat]
    rw [h]
  · rw [h]
    rfl

/-! ### Claim C6: an empty signal and the estimator -/

theorem dftBin_nil (n : ℕ) (k : ℤ) : dftBin n (sampleAt []) k = 0 := by
  unfold dftBin
  apply Finset.sum_eq_zero
  intro j _
  unfold sampleAt
  simp

theorem dftBin_one_single : dftBin 1 (sampleAt [(1 : ℝ)]) (0 : ℤ) = 1 := by
  unfold dftBin sampleAt
  rw [Finset.sum_range_one]
  norm_num

theorem gccCC_empty_single : gccCC [] [(1 : ℝ)] 1 = [(0 : ℝ)] := by
  unfold gccCC rfft irfft
  norm_num [show List.range 1 = [0] from rfl, dftBin_nil, dftBin_one_single,
    whitenBin, hermBin, Finset.sum_range_one]

/-- Counterexample to claim C6 as stated: an empty `sig` with the
non-empty reference `[1]` does not fail — the estimator returns lag `0`
with the degenerate correlation buffer `[0, 0]`. -/
theorem claim6_counterexample :
    gcc_phat [] [(1 : ℝ)] 1 none 1 = Except.ok (0, [0, 0]) := by
  simp only [gcc_phat]
  rw [if_neg (by norm_num)]
  rw [gccCC_empty_single]
  have hms : gccMaxShift (([] : List ℝ).length + [(1 : ℝ)].length) 1 1 none = 0 := by
    unfold gccMaxShift
    norm_num
  rw [hms]
  have hrot : gccRotate [(0 : ℝ)] 0 = [0, 0] := by
    unfold gccRotate pyDropFrom pyTakeTo
    norm_num
  rw [hrot]
  have habs : ([(0 : ℝ), 0].map fun v => |v|) = [0, 0] := by
    norm_num
  rw [habs]
  have hargmax : npArgmax [(0 : ℝ), 0] = 0 := by
    simp [npArgmax, argmaxAux]
  rw [hargmax]
  norm_num

/-- Claim C6 (amended): the estimator fails (numpy's zero-point FFT error,
the modelled `ComputationError`) exactly when both signals are empty; an
empty `sig` paired with a non-empty reference instead returns a
degenerate lag and correlation sequence. -/
theorem claim6_empty_sig (refsig : List ℝ) (fs : ℝ) (mt : Option ℝ) (interp : ℕ) :
    (refsig = [] → gcc_phat [] refsig fs mt interp = Except.error GccError.emptySignal)
    ∧ (refsig ≠ [] → ∃ p, gcc_phat [] refsig fs mt interp = Except.ok p) := by
  constructor
  · rintro rfl
    rfl
  · intro h
    have hne : ¬ (([] : List ℝ).length + refsig.length = 0) := by
      simp only [List.length_nil, zero_add]
      intro hc
      exact h (List.length_eq_zero.mp hc)
    simp only [gcc_phat, if_neg hne]
    exact ⟨_, rfl⟩

/-! ### Claim C2: the code against the specified window and rotation -/

theorem gccRotate_eq_specRotate (cc : List ℝ) (ms : ℤ) (h : 1 ≤ ms) :
    gccRotate cc ms = specRotate cc ms := by
  unfold gccRotate specRotate pyDropFrom pyTakeTo
  rw [if_neg (by omega), if_pos (by omega)]
  congr 2
  all_goals omega

theorem gccMaxShift_eq_spec (n interp : ℕ) (fs : ℝ) (mt : Option ℝ)
    (hmt : mt = none ∨ ∃ t, mt = some t ∧ t ≠ 0) :
    gccMaxShift n interp fs mt = specMaxShift n interp fs mt := by
  rcases hmt with rfl | ⟨t, rfl, ht⟩
  · rfl
  · unfold gccMaxShift specMaxShift
    dsimp only
    rw [if_neg ht]

/-- Claim C2 (amended): `gcc_phat` computes the whitened inverse
transform, window, rotation and lag exactly as the claim describes them —
provided the `max_tau` bound, when present, is non-zero (Python
truthiness) and the effective window is at least one sample; a bound that
truncates to zero instead makes `cc[-0:]` prepend the whole sequence. -/
theorem claim2_structure (sig refsig : List ℝ) (fs : ℝ) (mt : Option ℝ) (interp : ℕ)
    (hsig : sig ≠ []) ( _href : refsig ≠ [])
    (hmt : mt = none ∨ ∃ t, mt = some t ∧ t ≠ 0)
    (hms : 1 ≤ gccMaxShift (sig.length + refsig.length) interp fs mt) :
    gcc_phat sig refsig fs mt interp
      = Except.ok (specGccPhat sig refsig fs mt interp) := by
  have hne : ¬ (sig.length + refsig.length = 0) := by
    intro hc
    exact hsig (List.length_eq_zero.mp (by omega))
  have hmseq := gccMaxShift_eq_spec (sig.length + refsig.length) interp fs mt hmt
  have hroteq := gccRotate_eq_specRotate (gccCC sig refsig interp)
    (gccMaxShift (sig.length + refsig.length) interp fs mt) hms
  simp only [gcc_phat, specGccPhat, if_neg hne]
  rw [← hmseq, hroteq, hmseq]

/-- Witness for the amended C2 at `sig = refsig = [1]`, `max_tau = None`. -/
theorem claim2_structure_witness :
    gcc_phat [(1 : ℝ)] [(1 : ℝ)] 1 none 1
      = Except.ok (specGccPhat [(1 : ℝ)] [(1 : ℝ)] 1 none 1) :=
  claim2_structure [1] [1] 1 none 1 (by simp) (by simp) (Or.inl rfl)
    (by unfold gccMaxShift; norm_num)

/-- Counterexample to claim C2 as stated: at `sig = refsig = [1]` with
`maxTau = 1/2` the bound truncates to zero, and the Python slice
`cc[-0:]` keeps the whole sequence, so the returned correlation buffer has
3 entries while the described rotation (`last 0` ++ `first 1`) has 1. -/
theorem claim2_counterexample :
    gcc_phat [(1 : ℝ)] [(1 : ℝ)] 1 (some (1 / 2)) 1
      ≠ Except.ok (specGccPhat [(1 : ℝ)] [(1 : ℝ)] 1 (some (1 / 2)) 1) := by
  have hms : gccMaxShift (([(1 : ℝ)] : List ℝ).length + ([(1 : ℝ)] : List ℝ).length)
      1 1 (some (1 / 2)) = 0 := by
    unfold gccMaxShift pyInt
    norm_num
  have hcclen : (gccCC [(1 : ℝ)] [(1 : ℝ)] 1).length = 2 := by
    rw [gccCC_length]
    norm_num
  have hrotlen : (gccRotate (gccCC [(1 : ℝ)] [(1 : ℝ)] 1) 0).length = 3 := by
    unfold gccRotate pyDropFrom pyTakeTo
    rw [if_pos (by omega), if_pos (by omega)]
    simp only [List.length_append, List.length_drop, List.length_take]
    omega
  have hspeclen : (specRotate (gccCC [(1 : ℝ)] [(1 : ℝ)] 1)
      (specMaxShift (([(1 : ℝ)] : List ℝ).length + ([(1 : ℝ)] : List ℝ).length)
        1 1 (some (1 / 2)))).length = 1 := by
    have hsms : specMaxShift (([(1 : ℝ)] : List ℝ).length + ([(1 : ℝ)] : List ℝ).length)
        1 1 (some (1 / 2)) = 0 := by
      unfold specMaxShift pyInt
      norm_num
    rw [hsms]
    unfold specRotate
    simp only [List.length_append, List.length_drop, List.length_take]
    omega
  intro h
  simp only [gcc_phat, specGccPhat] at h
  rw [if_neg (show ¬ (([(1 : ℝ)] : List ℝ).length + ([(1 : ℝ)] : List ℝ).length = 0)
    by norm_num)] at h
  rw [Except.ok.injEq, Prod.mk.injEq] at h
  have hlen := congrArg List.length h.2
  rw [hms] at hlen
  rw [hrotlen, hspeclen] at hlen
  exact absurd hlen (by norm_num)

/-! ### Claim C5: the output callback -/

/-- Claim C5: each `on_ouput` invocation with request `frames`, writing
`avail` for `min frames remaining`: the cursor advances by exactly `avail`
(so it is monotone and never exceeds the probe length), the output is the
`avail` probe frames at the cursor followed by zero frames, and
`CallbackStop` is raised exactly when `avail < frames`. -/
theorem claim5_on_ouput (output_data : List (List ℝ)) (idx frames channels : ℕ)
    (hidx : idx ≤ output_data.length) :
    (Task.on_ouput output_data idx frames channels).2.1
        = idx + min frames (output_data.length - idx)
    ∧ idx ≤ (Task.on_ouput output_data idx frames channels).2.1
    ∧ (Task.on_ouput output_data idx frames channels).2.1 ≤ output_data.length
    ∧ (Task.on_ouput output_data idx frames channels).1
        = (output_data.drop idx).take (min frames (output_data.length - idx))
          ++ List.replicate (frames - min frames (output_data.length - idx))
              (List.replicate channels 0)
    ∧ ((Task.on_ouput output_data idx frames channels).2.2 = true
        ↔ min frames (output_data.length - idx) < frames) := by
  have hsize : ((output_data.drop idx).take frames).length
      = min frames (output_data.length - idx) := by
    rw [List.length_take, List.length_drop]
  have htake : (output_data.drop idx).take frames
      = (output_data.drop idx).take (min frames (output_data.length - idx)) := by
    rcases le_or_lt frames (output_data.length - idx) with hle | hlt
    · rw [min_eq_left hle]
    · rw [min_eq_right (le_of_lt hlt)]
      rw [List.take_of_length_le (by rw [List.length_drop]; omega),
        List.take_of_length_le (by rw [List.length_drop])]
  unfold Task.on_ouput
  dsimp only
  rw [hsize, htake]
  by_cases hlt : min frames (output_data.length - idx) < frames
  · rw [if_pos hlt]
    refine ⟨rfl, ?_, ?_, rfl, by simp [hlt]⟩
    · dsimp only
      omega
    · dsimp only
      omega
  · rw [if_neg hlt]
    have heq : min frames (output_data.length - idx) = frames := by omega
    refine ⟨rfl, ?_, ?_, ?_, by simp [hlt]⟩
    · dsimp only
      omega
    · dsimp only
      omega
    · dsimp only
      rw [heq, Nat.sub_self, List.replicate_zero, List.append_nil]

/-- Witness for C5 at `output_data = [[1],[2]]`, cursor 1, request 3. -/
theorem claim5_on_ouput_witness :
    (Task.on_ouput [[(1 : ℝ)], [2]] 1 3 1).2.1
        = 1 + min 3 (([[(1 : ℝ)], [2]] : List (List ℝ)).length - 1)
    ∧ 1 ≤ (Task.on_ouput [[(1 : ℝ)], [2]] 1 3 1).2.1
    ∧ (Task.on_ouput [[(1 : ℝ)], [2]] 1 3 1).2.1 ≤ ([[(1 : ℝ)], [2]] : List (List ℝ)).length
    ∧ (Task.on_ouput [[(1 : ℝ)], [2]] 1 3 1).1
        = (([[(1 : ℝ)], [2]] : List (List ℝ)).drop 1).take
            (min 3 (([[(1 : ℝ)], [2]] : List (List ℝ)).length - 1))
          ++ List.replicate (3 - min 3 (([[(1 : ℝ)], [2]] : List (List ℝ)).length - 1))
              (List.replicate 1 0)
    ∧ ((Task.on_ouput [[(1 : ℝ)], [2]] 1 3 1).2.2 = true
        ↔ min 3 (([[(1 : ℝ)], [2]] : List (List ℝ)).length - 1) < 3) :=
  claim5_on_ouput [[(1 : ℝ)], [2]] 1 3 1 (by norm_num)

/-! ### Claim C4: the probe signal -/

theorem hanning_length (M : ℕ) : (hanning M).length = M := by
  unfold hanning
  split_ifs with h
  · rw [h]
    rfl
  · rw [List.length_map, List.length_range]

theorem foldl_maxabs_le (l : List ℝ) (a : ℝ) :
    a ≤ List.foldl (fun a v => max a |v|) a l := by
  induction l generalizing a with
  | nil => exact le_refl a
  | cons v l ih =>
    calc a ≤ max a |v| := le_max_left _ _
      _ ≤ List.foldl (fun a v => max a |v|) (max a |v|) l := ih _

theorem npMaxAbs_nonneg (l : List ℝ) : 0 ≤ npMaxAbs l := foldl_maxabs_le l 0

theorem foldl_maxabs_div (l : List ℝ) (c : ℝ) (hc : 0 < c) (a : ℝ) :
    List.foldl (fun a v => max a |v|) (a / c) (l.map fun v => v / c)
      = (List.foldl (fun a v => max a |v|) a l) / c := by
  induction l generalizing a with
  | nil => rfl
  | cons v l ih =>
    simp only [List.map_cons, List.foldl_cons]
    rw [show |v / c| = |v| / c by rw [abs_div, abs_of_pos hc],
      max_div_div_right (le_of_lt hc)]
    exact ih (max a |v|)

theorem npMaxAbs_map_div (l : List ℝ) (c : ℝ) (hc : 0 < c) :
    npMaxAbs (l.map fun v => v / c) = npMaxAbs l / c := by
  have h := foldl_maxabs_div l c hc 0
  rw [zero_div] at h
  exact h

theorem foldl_maxabs_le_of_mem (l : List ℝ) (v : ℝ) (hv : v ∈ l) (a : ℝ) :
    |v| ≤ List.foldl (fun a v => max a |v|) a l := by
  induction l generalizing a with
  | nil => simp at hv
  | cons u l ih =>
    rcases List.mem_cons.mp hv with rfl | hmem
    · calc |v| ≤ max a |v| := le_max_right _ _
        _ ≤ List.foldl (fun a v => max a |v|) (max a |v|) l := foldl_maxabs_le _ _
    · exact ih hmem _

theorem le_npMaxAbs_of_mem (l : List ℝ) (v : ℝ) (hv : v ∈ l) : |v| ≤ npMaxAbs l :=
  foldl_maxabs_le_of_mem l v hv 0

/-- Claim C4: for a rate divisible by 10 and at least one channel, the
probe has `(0.1+0.2+0.1)·rate = 2·rate/5` frames, the mono channel is
zero outside the middle `rate/5`-sample noise burst, the burst's peak
absolute amplitude is exactly 1, and every channel other than channel 0 is
identically zero.  The raw noise draw `w` is a parameter; its windowed
peak being nonzero is the almost-sure non-degeneracy of the draw. -/
theorem claim4_probe_shape (rate channels : ℕ) (w : List ℝ)
    (hrate : 10 ∣ rate) ( _hch : 1 ≤ channels)
    (hw : w.length = rate / 5)
    (hpk : npMaxAbs (List.zipWith (fun a b => a * b) w (hanning (rate / 5))) ≠ 0) :
    (probeFrames rate channels w).length = 2 * rate / 5
    ∧ (∀ row ∈ probeFrames rate channels w, row.length = channels)
    ∧ (∀ i, i < rate / 10 → (monoProbe rate w).getD i 0 = 0)
    ∧ (∀ i, rate / 10 + rate / 5 ≤ i → (monoProbe rate w).getD i 0 = 0)
    ∧ npMaxAbs (noiseBurst rate w) = 1
    ∧ (∀ row ∈ probeFrames rate channels w, ∀ c, 1 ≤ c → row.getD c 0 = 0) := by
  obtain ⟨s, rfl⟩ := hrate
  have hs5 : 10 * s / 5 = 2 * s := by omega
  have hs10 : 10 * s / 10 = s := by omega
  have hnblen : (noiseBurst (10 * s) w).length = 2 * s := by
    unfold noiseBurst
    rw [List.length_map, List.length_zipWith, hanning_length, hw, hs5]
    omega
  have hmlen : (monoProbe (10 * s) w).length = 4 * s := by
    unfold monoProbe
    rw [List.length_append, List.length_append, List.length_replicate, hnblen]
    omega
  have hpk' : 0 < npMaxAbs (List.zipWith (fun a b => a * b) w (hanning (10 * s / 5))) :=
    lt_of_le_of_ne (npMaxAbs_nonneg _) (Ne.symm hpk)
  refine ⟨?_, ?_, ?_, ?_, ?_, ?_⟩
  · unfold probeFrames
    rw [List.length_map, hmlen]
    omega
  · intro row hrow
    unfold probeFrames at hrow
    obtain ⟨v, _, rfl⟩ := List.mem_map.mp hrow
    rw [List.length_map, List.length_range]
  · intro i hi
    unfold monoProbe
    rw [List.append_assoc,
      List.getD_append _ _ _ _ (by rw [List.length_replicate]; omega),
      List.getD_eq_getElem _ _ (by rw [List.length_replicate]; omega)]
    simp
  · intro i hi
    unfold monoProbe
    by_cases hin : i < 4 * s
    · rw [List.append_assoc,
        List.getD_append_right _ _ _ _ (by rw [List.length_replicate]; omega),
        List.length_replicate,
        List.getD_append_right _ _ _ _ (by rw [hnblen]; omega), hnblen,
        List.getD_eq_getElem _ _ (by rw [List.length_replicate]; omega)]
      simp
    · rw [List.getD_eq_default]
      rw [List.length_append, List.length_append, List.length_replicate, hnblen]
      omega
  · unfold noiseBurst
    dsimp only
    rw [npMaxAbs_map_div _ _ hpk']
    exact div_self (ne_of_gt hpk')
  · intro row hrow c hc
    unfold probeFrames at hrow
    obtain ⟨v, _, rfl⟩ := List.mem_map.mp hrow
    by_cases hcch : c < channels
    · rw [List.getD_eq_getElem _ _ (by rw [List.length_map, List.length_range]; omega),
        List.getElem_map, List.getElem_range]
      rw [if_neg (by omega)]
    · rw [List.getD_eq_default]
      rw [List.length_map, List.length_range]
      omega

/-- Witness for C4 at `rate = 20`, one channel, noise draw `[0,1,0,0]`;
the Hann window value at index 1 is `1/2 - cos(2π/3)/2 = 3/4 ≠ 0`, so the
windowed peak is nonzero. -/
theorem claim4_probe_shape_witness :
    (probeFrames 20 1 [0, 1, 0, 0]).length = 2 * 20 / 5
    ∧ (∀ row ∈ probeFrames 20 1 [0, 1, 0, 0], row.length = 1)
    ∧ (∀ i, i < 20 / 10 → (monoProbe 20 [0, 1, 0, 0]).getD i 0 = 0)
    ∧ (∀ i, 20 / 10 + 20 / 5 ≤ i → (monoProbe 20 [0, 1, 0, 0]).getD i 0 = 0)
    ∧ npMaxAbs (noiseBurst 20 [0, 1, 0, 0]) = 1
    ∧ (∀ row ∈ probeFrames 20 1 [0, 1, 0, 0], ∀ c, 1 ≤ c → row.getD c 0 = 0) := by
  have hget : (List.zipWith (fun a b => a * b) ([0, 1, 0, 0] : List ℝ)
      (hanning (20 / 5))).get? 1
      = some (1 * (1 / 2 - 1 / 2 * Real.cos (2 * Real.pi * ((1 : ℕ) : ℝ)
          / (((20 / 5 : ℕ) : ℝ) - 1)))) := by
    rfl
  have hval : 1 * (1 / 2 - 1 / 2 * Real.cos (2 * Real.pi * ((1 : ℕ) : ℝ)
      / (((20 / 5 : ℕ) : ℝ) - 1))) = (3 / 4 : ℝ) := by
    have hc : ((20 / 5 : ℕ) : ℝ) = 4 := by norm_num
    rw [hc, show 2 * Real.pi * ((1 : ℕ) : ℝ) / ((4 : ℝ) - 1) = Real.pi - Real.pi / 3 by
      push_cast; ring, Real.cos_pi_sub, Real.cos_pi_div_three]
    norm_num
  have hpk : npMaxAbs (List.zipWith (fun a b => a * b) ([0, 1, 0, 0] : List ℝ)
      (hanning (20 / 5))) ≠ 0 := by
    intro h0
    have hmem := List.get?_mem hget
    have hle := le_npMaxAbs_of_mem _ _ hmem
    rw [hval, h0] at hle
    norm_num at hle
  exact claim4_probe_shape 20 1 [0, 1, 0, 0] (by norm_num) le_rfl (by norm_num) hpk


/-! ### Claim C3: scan is not atomic on failure -/

/-- Counterexample to claim C3 as stated: scanning backend `"A"` whose
declared default input device index `0` is absent from the (empty) device
table raises the `IndexError` after the backend and device listings have
already been overwritten — the prior `api_list` `["old"]` is gone. -/
theorem claim3_counterexample :
    (DeviceManager.scan ⟨[], [], ["old"], 7, [], [], [], [], [], 3, 4⟩
        ⟨true, [⟨"A", 0, 0⟩], []⟩ "A").2 = some ScanError.indexError
    ∧ (DeviceManager.scan ⟨[], [], ["old"], 7, [], [], [], [], [], 3, 4⟩
        ⟨true, [⟨"A", 0, 0⟩], []⟩ "A").1.api_list ≠ ["old"] := by
  constructor
  · rfl
  · intro h
    rw [show (DeviceManager.scan ⟨[], [], ["old"], 7, [], [], [], [], [], 3, 4⟩
        ⟨true, [⟨"A", 0, 0⟩], []⟩ "A").1.api_list = ["A"] from rfl] at h
    exact absurd (List.head_eq_of_cons_eq h) (by decide)

/-- Claim C3, amended: a subsystem-reinitialization failure does leave the
whole prior state untouched, but any later failure (`IndexError` on the
default-device lookups, `ValueError` on the membership searches) returns
with the backend and device listing fields already replaced by the fresh
enumeration — `scan` is not atomic; only `default_output_index` is still
the prior value whenever any error is reported. -/
theorem claim3_scan_partial (st : DeviceManagerState) (env : AudioEnv) (api : String) :
    (env.reinit_ok = false →
      DeviceManager.scan st env api = (st, some ScanError.reinitFailed))
    ∧ (env.reinit_ok = true →
      ((DeviceManager.scan st env api).1.apis = env.apis
      ∧ (DeviceManager.scan st env api).1.devices = env.devices
      ∧ (DeviceManager.scan st env api).1.api_list = env.apis.map (fun a => a.name)
      ∧ (DeviceManager.scan st env api).1.input_devices = env.devices.filter (fun d =>
          decide (d.max_input_channels > 0)
            && (d.hostapi == (DeviceManager.scan st env api).1.api_index))
      ∧ (DeviceManager.scan st env api).1.output_devices = env.devices.filter (fun d =>
          decide (d.max_output_channels > 0)
            && (d.hostapi == (DeviceManager.scan st env api).1.api_index))
      ∧ (DeviceManager.scan st env api).1.device_list = env.devices.map (fun d => d.name)
      ∧ (DeviceManager.scan st env api).1.input_list
          = (DeviceManager.scan st env api).1.input_devices.map (fun d => d.name)
      ∧ (DeviceManager.scan st env api).1.output_list
          = (DeviceManager.scan st env api).1.output_devices.map (fun d => d.name)))
    ∧ ((DeviceManager.scan st env api).2 ≠ none →
      (DeviceManager.scan st env api).1.default_output_index
        = st.default_output_index) := by
  refine ⟨?_, ?_, ?_⟩
  · intro h
    unfold DeviceManager.scan
    rw [if_pos (by simp [h])]
  · intro h
    unfold DeviceManager.scan
    rw [if_neg (by simp [h])]
    dsimp only
    split
    · exact ⟨rfl, rfl, rfl, rfl, rfl, rfl, rfl, rfl⟩
    split
    · exact ⟨rfl, rfl, rfl, rfl, rfl, rfl, rfl, rfl⟩
    split
    · exact ⟨rfl, rfl, rfl, rfl, rfl, rfl, rfl, rfl⟩
    split
    · exact ⟨rfl, rfl, rfl, rfl, rfl, rfl, rfl, rfl⟩
    split
    · exact ⟨rfl, rfl, rfl, rfl, rfl, rfl, rfl, rfl⟩
    · exact ⟨rfl, rfl, rfl, rfl, rfl, rfl, rfl, rfl⟩
  · unfold DeviceManager.scan
    by_cases h : env.reinit_ok = true
    · rw [if_neg (by simp [h])]
      dsimp only
      split
      · intro _; rfl
      split
      · intro _; rfl
      split
      · intro _; rfl
      split
      · intro _; rfl
      split
      · intro _; rfl
      · intro hc; exact absurd rfl hc
    · rw [if_pos (by simpa using h)]
      intro _; rfl

/-! ### Claim C7: a failed run and the published numeric fields -/

/-- Claim C7, amended: an exception anywhere in a run — device-name
resolution, streaming, or estimation — does make `run` publish the error
result `-1` and store no new numeric fields, but the `latency`, `x` and
`y` fields of the prior run are NOT discarded: they survive unchanged in
the readable task state. -/
theorem claim7_error_keeps_stale (st : TaskState) (dm : DeviceManagerState)
    (env : RunEnv) (inm onm : String) :
    ∀ e : Unit, (Task.exec st dm env inm onm).2 = Except.error e →
      Task.run st dm env inm onm = ((Task.exec st dm env inm onm).1, -1)
      ∧ (Task.exec st dm env inm onm).1.latency = st.latency
      ∧ (Task.exec st dm env inm onm).1.x = st.x
      ∧ (Task.exec st dm env inm onm).1.y = st.y := by
  intro e
  have hrun : ∀ p : TaskState × Except Unit ℤ, Task.exec st dm env inm onm = p →
      p.2 = Except.error e → Task.run st dm env inm onm = (p.1, -1) := by
    intro p hp h2
    unfold Task.run
    rw [hp]
    rcases p with ⟨st1, r⟩
    cases r with
    | ok v => exact absurd h2 (by simp)
    | error u => rfl
  intro h2
  refine ⟨hrun _ rfl h2, ?_⟩
  revert h2
  unfold Task.exec
  dsimp only
  split
  · intro _; exact ⟨rfl, rfl, rfl⟩
  split
  · intro _; exact ⟨rfl, rfl, rfl⟩
  split
  case _ =>
    split
    · intro _; exact ⟨rfl, rfl, rfl⟩
    case _ blocks t_in t_out hstr =>
      split
      · intro _; exact ⟨rfl, rfl, rfl⟩
      case _ offset cc heq =>
        intro hc
        exact absurd hc (by simp)
  case _ =>
    intro _; exact ⟨rfl, rfl, rfl⟩

/-- Witness for the amended C7 at a concrete task state holding results of
a prior run, with a device manager whose input list is empty so that
resolution fails. -/
theorem claim7_error_keeps_stale_witness :
    Task.run ⟨5, [1], [2], 0, 0, [], 0, []⟩
        ⟨[], [], [], 0, [], [], [], [], [], 0, 0⟩ ⟨[], none⟩ "i" "o"
      = ((Task.exec ⟨5, [1], [2], 0, 0, [], 0, []⟩
          ⟨[], [], [], 0, [], [], [], [], [], 0, 0⟩ ⟨[], none⟩ "i" "o").1, -1)
    ∧ (Task.exec ⟨5, [1], [2], 0, 0, [], 0, []⟩
        ⟨[], [], [], 0, [], [], [], [], [], 0, 0⟩ ⟨[], none⟩ "i" "o").1.latency = 5
    ∧ (Task.exec ⟨5, [1], [2], 0, 0, [], 0, []⟩
        ⟨[], [], [], 0, [], [], [], [], [], 0, 0⟩ ⟨[], none⟩ "i" "o").1.x = [1]
    ∧ (Task.exec ⟨5, [1], [2], 0, 0, [], 0, []⟩
        ⟨[], [], [], 0, [], [], [], [], [], 0, 0⟩ ⟨[], none⟩ "i" "o").1.y = [2] :=
  claim7_error_keeps_stale ⟨5, [1], [2], 0, 0, [], 0, []⟩
    ⟨[], [], [], 0, [], [], [], [], [], 0, 0⟩ ⟨[], none⟩ "i" "o" () rfl

/-- Counterexample to claim C7 as stated: a run whose device resolution
fails publishes the error result `-1`, yet the numeric fields of the
previously completed run — `latency = 5`, `x = [1]`, `y = [2]` — are still
in the readable task state afterwards. -/
theorem claim7_counterexample :
    (Task.run ⟨5, [1], [2], 0, 0, [], 0, []⟩
        ⟨[], [], [], 0, [], [], [], [], [], 0, 0⟩ ⟨[], none⟩ "i" "o").2 = -1
    ∧ (Task.run ⟨5, [1], [2], 0, 0, [], 0, []⟩
        ⟨[], [], [], 0, [], [], [], [], [], 0, 0⟩ ⟨[], none⟩ "i" "o").1.latency = 5
    ∧ (Task.run ⟨5, [1], [2], 0, 0, [], 0, []⟩
        ⟨[], [], [], 0, [], [], [], [], [], 0, 0⟩ ⟨[], none⟩ "i" "o").1.x = [1]
    ∧ (Task.run ⟨5, [1], [2], 0, 0, [], 0, []⟩
        ⟨[], [], [], 0, [], [], [], [], [], 0, 0⟩ ⟨[], none⟩ "i" "o").1.y = [2] :=
  ⟨rfl, rfl, rfl, rfl⟩

end App
